import Mathlib

/-!
Verification development for the BCache window planner and executor.

The definitions below are a shallow embedding of the Python sources:

* `src/bodocache/adapters/segmented_file_backend.py` (segment files as byte
  lists, `read_range`, `write_page`, `read_range_into`);
* `src/bodocache/planner/pipeline.py` and `scheduler.py` (tables as lists of
  records; pandas column operations become list operations; `sort_values`
  becomes an insertion sort by the same key, which is a legitimate model since
  pandas' default quicksort is not stable and the source never relies on tie
  order; `groupby(...).cumsum()` becomes `cumsumBy`, an accumulator-passing
  fold; 64-bit integer columns become `Int`, and float64 columns become `ℚ`,
  which is exact for the ranges exercised here);
* `src/bodocache/planner/waves.py` (`_build_swizzle` and the tile-grid sizing
  of `build_wave_specs`; `math.floor(math.sqrt n)` is `Nat.sqrt`, exact for
  every op count a plan can hold);
* `src/bodocache/agent/node_agent.py` with the sim engine of
  `copy_engine.py` (the stream of `on_ready` events produced by
  `NodeAgent.execute`).

Fallible operations return `Except String`; a Python exception that
propagates out of a function is the `.error` case.
-/

namespace BCache

/-! ## List utilities used by the embedding -/

/-- Insert `x` into `l` before the first element `y` with `le x y`. -/
def insertSorted {α : Type} (le : α → α → Bool) (x : α) : List α → List α
  | [] => [x]
  | y :: ys => if le x y then x :: y :: ys else y :: insertSorted le x ys

/-- Insertion sort by the boolean order `le`.  Models `DataFrame.sort_values`
by the corresponding key. -/
def sortBy {α : Type} (le : α → α → Bool) (l : List α) : List α :=
  l.foldr (insertSorted le) []

theorem mem_insertSorted {α : Type} (le : α → α → Bool) (x a : α) :
    ∀ l : List α, a ∈ insertSorted le x l ↔ a = x ∨ a ∈ l := by
  intro l
  induction l with
  | nil => simp [insertSorted]
  | cons y ys ih =>
    by_cases h : le x y = true
    · simp [insertSorted, h]
    · simp only [insertSorted, h, Bool.false_eq_true, if_false, List.mem_cons, ih]
      tauto

theorem insertSorted_perm {α : Type} (le : α → α → Bool) (x : α) :
    ∀ l : List α, (insertSorted le x l).Perm (x :: l) := by
  intro l
  induction l with
  | nil => simp [insertSorted]
  | cons y ys ih =>
    by_cases h : le x y = true
    · simp [insertSorted, h]
    · simp only [insertSorted, h, Bool.false_eq_true, if_false]
      exact (List.Perm.cons y ih).trans (List.Perm.swap x y ys)

theorem sortBy_perm {α : Type} (le : α → α → Bool) (l : List α) :
    (sortBy le l).Perm l := by
  induction l with
  | nil => simp [sortBy]
  | cons x xs ih =>
    exact ((insertSorted_perm le x (sortBy le xs)).trans (List.Perm.cons x ih))

theorem mem_sortBy {α : Type} (le : α → α → Bool) (l : List α) (a : α) :
    a ∈ sortBy le l ↔ a ∈ l :=
  (sortBy_perm le l).mem_iff

theorem insertSorted_pairwise {α : Type} (le : α → α → Bool)
    (htot : ∀ a b, le a b = false → le b a = true)
    (htrans : ∀ a b c, le a b = true → le b c = true → le a c = true) (x : α) :
    ∀ l : List α, l.Pairwise (fun a b => le a b = true) →
      (insertSorted le x l).Pairwise (fun a b => le a b = true) := by
  intro l
  induction l with
  | nil => simp [insertSorted]
  | cons y ys ih =>
    intro hp
    rcases List.pairwise_cons.mp hp with ⟨hy, hys⟩
    cases h : le x y with
    | true =>
      simp only [insertSorted, h, if_true]
      refine List.pairwise_cons.mpr ⟨?_, hp⟩
      intro z hz
      rcases List.mem_cons.mp hz with rfl | hz
      · exact h
      · exact htrans _ _ _ h (hy z hz)
    | false =>
      simp only [insertSorted, h, Bool.false_eq_true, if_false]
      refine List.pairwise_cons.mpr ⟨?_, ih hys⟩
      intro z hz
      rcases (mem_insertSorted le x z ys).mp hz with rfl | hz
      · exact htot _ _ h
      · exact hy z hz

theorem sortBy_pairwise {α : Type} (le : α → α → Bool)
    (htot : ∀ a b, le a b = false → le b a = true)
    (htrans : ∀ a b c, le a b = true → le b c = true → le a c = true)
    (l : List α) : (sortBy le l).Pairwise (fun a b => le a b = true) := by
  induction l with
  | nil => simp [sortBy]
  | cons x xs ih => exact insertSorted_pairwise le htot htrans x _ ih

/-- Keep the first occurrence of every key, in first-occurrence order.  Models
the key set of a pandas `groupby` (key order is irrelevant to every property
proved below). -/
def dedupAux {κ : Type} [DecidableEq κ] (seen : List κ) : List κ → List κ
  | [] => []
  | k :: ks => if k ∈ seen then dedupAux seen ks else k :: dedupAux (k :: seen) ks

def dedupKeys {κ : Type} [DecidableEq κ] (l : List κ) : List κ :=
  dedupAux [] l

theorem mem_of_mem_dedupAux {κ : Type} [DecidableEq κ] (a : κ) :
    ∀ (l : List κ) (seen : List κ), a ∈ dedupAux seen l → a ∈ l := by
  intro l
  induction l with
  | nil => intro seen h; simp [dedupAux] at h
  | cons k ks ih =>
    intro seen h
    by_cases hk : k ∈ seen
    · simp only [dedupAux, if_pos hk] at h
      exact List.mem_cons_of_mem _ (ih seen h)
    · simp only [dedupAux, if_neg hk, List.mem_cons] at h
      rcases h with rfl | h
      · exact List.mem_cons_self _ _
      · exact List.mem_cons_of_mem _ (ih _ h)

theorem mem_dedupAux_of_mem {κ : Type} [DecidableEq κ] (a : κ) :
    ∀ (l : List κ) (seen : List κ), a ∈ l → a ∉ seen → a ∈ dedupAux seen l := by
  intro l
  induction l with
  | nil => intro seen h; simp at h
  | cons k ks ih =>
    intro seen h hns
    by_cases hk : k ∈ seen
    · simp only [dedupAux, if_pos hk]
      rcases List.mem_cons.mp h with rfl | h
      · exact absurd hk hns
      · exact ih seen h hns
    · simp only [dedupAux, if_neg hk, List.mem_cons]
      rcases List.mem_cons.mp h with rfl | h
      · exact Or.inl rfl
      · by_cases hak : a = k
        · exact Or.inl hak
        · exact Or.inr (ih _ h (by simp [hns, hak]))

theorem mem_dedupKeys {κ : Type} [DecidableEq κ] (a : κ) (l : List κ) :
    a ∈ dedupKeys l ↔ a ∈ l :=
  ⟨mem_of_mem_dedupAux a l [], fun h => mem_dedupAux_of_mem a l [] h (by simp)⟩

/-- Grouped running sum: models `df.groupby(keys)[col].cumsum()`.  `acc`
remembers the running total per key so far; each row is paired with the
cumulative value of its own key after adding its own value. -/
def cumsumBy {α κ : Type} [DecidableEq κ] (key : α → κ) (val : α → Int) :
    List α → (κ → Int) → List (α × Int)
  | [], _ => []
  | x :: xs, acc =>
    let c := acc (key x) + val x
    (x, c) :: cumsumBy key val xs (fun k => if k = key x then c else acc k)

theorem cumsumBy_map_fst {α κ : Type} [DecidableEq κ] (key : α → κ) (val : α → Int) :
    ∀ (l : List α) (acc : κ → Int), (cumsumBy key val l acc).map Prod.fst = l := by
  intro l
  induction l with
  | nil => intro acc; simp [cumsumBy]
  | cons x xs ih => intro acc; simp [cumsumBy, ih]

theorem fst_mem_of_mem_cumsumBy {α κ : Type} [DecidableEq κ] (key : α → κ)
    (val : α → Int) (p : α × Int) :
    ∀ (l : List α) (acc : κ → Int), p ∈ cumsumBy key val l acc → p.1 ∈ l := by
  intro l
  induction l with
  | nil => intro acc h; simp [cumsumBy] at h
  | cons x xs ih =>
    intro acc h
    simp only [cumsumBy, List.mem_cons] at h
    rcases h with rfl | h
    · exact List.mem_cons_self _ _
    · exact List.mem_cons_of_mem _ (ih _ h)

theorem cumsumBy_snd_nonneg {α κ : Type} [DecidableEq κ] (key : α → κ)
    (val : α → Int) (p : α × Int) :
    ∀ (l : List α) (acc : κ → Int), (∀ x ∈ l, 0 ≤ val x) → (∀ k, 0 ≤ acc k) →
      p ∈ cumsumBy key val l acc → 0 ≤ p.2 := by
  intro l
  induction l with
  | nil => intro acc _ _ h; simp [cumsumBy] at h
  | cons x xs ih =>
    intro acc hval hacc h
    simp only [cumsumBy, List.mem_cons] at h
    rcases h with rfl | h
    · have := hval x (List.mem_cons_self _ _)
      have := hacc (key x)
      simp only
      omega
    · refine ih _ (fun y hy => hval y (List.mem_cons_of_mem _ hy)) ?_ h
      intro k
      by_cases hk : k = key x
      · have := hval x (List.mem_cons_self _ _)
        have := hacc (key x)
        simp only [hk, if_pos rfl]
        omega
      · simpa [hk] using hacc k

/-- The filter used when a cumulative-byte cap is enforced: rows of key `k`
whose running total is at or below `C`. -/
def capFilter {α κ : Type} [DecidableEq κ] (key : α → κ) (k : κ) (C : Int)
    (p : α × Int) : Bool :=
  decide (key p.1 = k ∧ p.2 ≤ C)

theorem sum_filter_nonneg {α κ : Type} [DecidableEq κ] (key : α → κ)
    (val : α → Int) (k : κ) (C : Int) (l : List α) (acc : κ → Int)
    (hval : ∀ x ∈ l, 0 ≤ val x) :
    0 ≤ (((cumsumBy key val l acc).filter (capFilter key k C)).map
      (fun p => val p.1)).sum := by
  refine List.sum_nonneg ?_
  intro b hb
  rcases List.mem_map.mp hb with ⟨p, hp, rfl⟩
  exact hval _ (fst_mem_of_mem_cumsumBy key val p _ _ (List.mem_of_mem_filter hp))

/-- Core capacity bound: summing the values of rows of key `k` whose running
cumulative total stays at or below `C` can raise the running total to at most
`max C (acc k)`. -/
theorem cumsumBy_filter_sum_le {α κ : Type} [DecidableEq κ] (key : α → κ)
    (val : α → Int) (k : κ) (C : Int) :
    ∀ (l : List α) (acc : κ → Int), (∀ x ∈ l, 0 ≤ val x) →
      (((cumsumBy key val l acc).filter (capFilter key k C)).map
        (fun p => val p.1)).sum + acc k ≤ max C (acc k) := by
  intro l
  induction l with
  | nil => intro acc _; simp [cumsumBy, le_max_iff]
  | cons x xs ih =>
    intro acc hval
    have hvx : 0 ≤ val x := hval x (List.mem_cons_self _ _)
    have hval' : ∀ y ∈ xs, 0 ≤ val y := fun y hy => hval y (List.mem_cons_of_mem _ hy)
    have hunfold : cumsumBy key val (x :: xs) acc =
        (x, acc (key x) + val x) ::
          cumsumBy key val xs
            (fun j => if j = key x then acc (key x) + val x else acc j) := rfl
    rw [hunfold]
    set c := acc (key x) + val x with hc_def
    set acc' := fun j => if j = key x then c else acc j with hacc'
    have hrec := ih acc' hval'
    by_cases hkx : key x = k
    · subst hkx
      have hacck : acc' (key x) = c := by
        simp [hacc']
      by_cases hc : c ≤ C
      · rw [List.filter_cons_of_pos (by simp [capFilter, hc])]
        simp only [List.map_cons, List.sum_cons]
        rw [hacck] at hrec
        have hmaxC : max C c = C := max_eq_left hc
        rw [hmaxC] at hrec
        refine le_trans ?_ (le_max_left C (acc (key x)))
        omega
      · rw [List.filter_cons_of_neg (by simp [capFilter, hc])]
        rw [hacck] at hrec
        have hmaxc : max C c = c := max_eq_right (by omega)
        rw [hmaxc] at hrec
        have hnn := sum_filter_nonneg key val (key x) C xs acc' hval'
        refine le_trans ?_ (le_max_right C (acc (key x)))
        omega
    · rw [List.filter_cons_of_neg (by simp [capFilter, hkx])]
      have hacck : acc' k = acc k := by
        have : ¬ (k = key x) := fun h => hkx h.symm
        simp [hacc', this]
      rw [hacck] at hrec
      exact hrec

/-! ## Segmented page store (`adapters/segmented_file_backend.py`)

A segment file is a `List Nat` of byte values.  `ensure_segment` makes a
missing file empty, so a missing segment is simply `[]`.  Page ids and page
sizes are the natural numbers of the intended domain (`page_bytes > 0`,
non-negative page ids per the data model). -/

/-- Model of `SegmentedFileBackend.read_range`.  Mirrors the source line by
line: the early empty return, the bounds check against the segment size, the
positioned read, and the short-read re-check. -/
def read_range (seg : List Nat) (start_pid end_pid page_bytes : Nat) :
    Except String (List Nat) :=
  if end_pid < start_pid then .ok []
  else
    let size := (end_pid - start_pid + 1) * page_bytes
    let off := start_pid * page_bytes
    if seg.length < off + size then .error "segment too small for read"
    else
      let buf := (seg.drop off).take size
      if buf.length ≠ size then .error "short read"
      else .ok buf

/-- Model of `SegmentedFileBackend.write_page`.  A positioned write past the
end of the file zero-fills the gap (POSIX semantics of seek-then-write); a
write inside the file overwrites in place.  The `assert` on the data length
becomes a hypothesis on the round-trip theorem. -/
def write_page (seg : List Nat) (page_id page_bytes : Nat) (data : List Nat) :
    List Nat :=
  let off := page_id * page_bytes
  let padded := seg ++ List.replicate (off - seg.length) 0
  padded.take off ++ data ++ padded.drop (off + data.length)

/-- Model of `SegmentedFileBackend.read_range_into`.  The writable buffer is a
`List Nat` plus a read-only flag; the result pairs the Python return (or the
raised error) with the buffer contents after the call, so that theorems can
speak about what the call did to the caller's buffer. -/
def read_range_into (seg : List Nat) (start_pid end_pid page_bytes : Nat)
    (readonly : Bool) (out_buf : List Nat) : Except String Nat × List Nat :=
  if end_pid < start_pid then (.ok 0, out_buf)
  else
    let size := (end_pid - start_pid + 1) * page_bytes
    let off := start_pid * page_bytes
    if readonly then (.error "out_buf must be writable", out_buf)
    else if out_buf.length < size then (.error "out_buf too small", out_buf)
    else if seg.length < off + size then (.error "segment too small for read", out_buf)
    else (.ok size, (seg.drop off).take size ++ out_buf.drop size)

/-! ## Planner data model (`planner/pipeline.py`, `planner/scheduler.py`)

Rows of the per-window tables.  Integer (int64) columns are `Int`; float64
columns are `ℚ` (exact for the decimal literals and ratios the pipeline
computes).  String-valued id columns (`node`, `tenant`) are modelled as `Int`,
which preserves equality/ordering structure, the only thing the pipeline uses
them for. -/

/-- A row of the planner's requests table (`KVRequest`).  `page_id` is the
column `run_window_core`/`admission_core` assign in place; whether it is
present at all is tracked by `ReqTable.hasPageId`. -/
structure ReqRow where
  req_id : Int
  node : Int
  prefix_id : Int
  layer : Int
  page_start : Int
  page_end : Int
  tier_src : Int
  tier_dst : Int
  deadline_ms : Int
  page_bytes : Int
  tenant : Int
  est_fill_ms : ℚ
  pcluster : Int
  page_id : Int
deriving DecidableEq

/-- The requests DataFrame: rows plus which of the two optional columns
(`pcluster`, `page_id`) exist.  When a flag is `false` the corresponding row
field is a don't-care. -/
structure ReqTable where
  rows : List ReqRow
  hasPcluster : Bool
  hasPageId : Bool
deriving DecidableEq

/-- A row of the heat table.  `size_bytes` presence is tracked by
`HeatTable.hasSize`; `run_window` fills in 256 KiB when the column is
missing. -/
structure HeatRow where
  layer : Int
  page_id : Int
  decay_hits : Int
  tenant_weight : ℚ
  size_bytes : Int
deriving DecidableEq

structure HeatTable where
  rows : List HeatRow
  hasSize : Bool
deriving DecidableEq

structure TierCap where
  tier : Int
  bandwidth_caps : Int
  free_bytes : Int
deriving DecidableEq

structure TenantCap where
  tenant : Int
  tier : Int
  bandwidth_caps : Int
deriving DecidableEq

structure LayerLat where
  layer : Int
  lat_ms : ℚ
deriving DecidableEq

/-- A request row after `score_and_filter`: the merged heat columns and the
computed scores travel with the row. -/
structure ScoredRow where
  r : ReqRow
  decay_hits : Int
  tenant_weight : ℚ
  pop : ℚ
  urgency : ℚ
deriving DecidableEq

/-- A coalesced run (`runs` frame of `coalesce_intervals`). -/
structure RunRow where
  node : Int
  tier_src : Int
  tier_dst : Int
  pcluster : Int
  layer : Int
  run_id : Int
  bytes : Int
  deadline_ms : Int
  fanout : Int
  urgency_min : ℚ
  start_pid : Int
  end_pid : Int
  page_bytes : Int
deriving DecidableEq

/-- A final plan row (`apply_caps` output). -/
structure PlanRow where
  node : Int
  tier_src : Int
  tier_dst : Int
  pcluster : Int
  layer : Int
  run_id : Int
  bytes : Int
  deadline_ms : Int
  fanout : Int
  overlap : Int
  priority : ℚ
  start_pid : Int
  end_pid : Int
  page_bytes : Int
deriving DecidableEq

/-- int64 max, the `fillna` sentinel the source uses for missing caps. -/
def INT64_MAX : Int := 9223372036854775807

/-! ## Stage 1: `score_and_filter` -/

/-- Heat rows matching a `(layer, page_id)` join key, in table order.  A
pandas left merge emits one output row per match (or a single null row when
there is none), which the `List.bind` below reproduces. -/
def heatMatches (heat : List HeatRow) (layer page_id : Int) : List HeatRow :=
  heat.filter (fun h => decide (h.layer = layer ∧ h.page_id = page_id))

/-- Model of `pipeline.score_and_filter`: join heat on `(layer, page_start)`
with `decay_hits` defaulting to 0 and `tenant_weight` to 1, compute
`pop = α·decay_hits + β·tenant_weight` and
`urgency = (deadline_ms − now_ms) / max(est_fill_ms, 1)`, and keep rows with
`pop > pmin` or `urgency > umin`. -/
def score_and_filter (requests : List ReqRow) (heat : List HeatRow)
    (now_ms : Int) (pmin umin alpha beta : ℚ) : List ScoredRow :=
  let merged := requests.flatMap (fun r0 =>
    let r := { r0 with page_id := r0.page_start }
    let ms := heatMatches heat r.layer r.page_id
    if ms.isEmpty then
      [(r, (0 : Int), (1 : ℚ))]
    else
      ms.map (fun h => (r, h.decay_hits, h.tenant_weight)))
  let scored := merged.map (fun (r, dh, tw) =>
    { r := r
      decay_hits := dh
      tenant_weight := tw
      pop := alpha * (dh : ℚ) + beta * tw
      urgency := ((r.deadline_ms : ℚ) - (now_ms : ℚ)) / max (r.est_fill_ms) 1 })
  scored.filter (fun s => decide (pmin < s.pop ∨ umin < s.urgency))

/-! ## Stage 2: `apply_tenant_caps` -/

def bytesRow (s : ScoredRow) : Int :=
  (s.r.page_end - s.r.page_start + 1) * s.r.page_bytes

def tenantCapOf (tenant_caps : List TenantCap) (tenant tier : Int) : Int :=
  match tenant_caps.find? (fun c => decide (c.tenant = tenant ∧ c.tier = tier)) with
  | some c => c.bandwidth_caps
  | none => INT64_MAX

/-- Lexicographic order on two integer keys (pandas multi-key sort order). -/
def lex2 (a1 a2 b1 b2 : Int) : Prop :=
  a1 < b1 ∨ (a1 = b1 ∧ a2 ≤ b2)

instance (a1 a2 b1 b2 : Int) : Decidable (lex2 a1 a2 b1 b2) := by
  unfold lex2; infer_instance

/-- Lexicographic order on four integer keys. -/
def lex4 (a1 a2 a3 a4 b1 b2 b3 b4 : Int) : Prop :=
  a1 < b1 ∨ (a1 = b1 ∧ (a2 < b2 ∨ (a2 = b2 ∧ (a3 < b3 ∨ (a3 = b3 ∧ a4 ≤ b4)))))

instance (a1 a2 a3 a4 b1 b2 b3 b4 : Int) :
    Decidable (lex4 a1 a2 a3 a4 b1 b2 b3 b4) := by
  unfold lex4; infer_instance

/-- Sort key of stage 2: `(node, tier_dst, tenant, deadline_ms)`. -/
def tenantLe (a b : ScoredRow) : Bool :=
  decide (lex4 a.r.node a.r.tier_dst a.r.tenant a.r.deadline_ms
               b.r.node b.r.tier_dst b.r.tenant b.r.deadline_ms)

def tenantKey (s : ScoredRow) : Int × Int × Int := (s.r.node, s.r.tier_dst, s.r.tenant)

/-- Model of `pipeline.apply_tenant_caps`: per-(node, tier_dst, tenant)
running-byte token bucket in deadline order; rows whose running total exceeds
the tenant cap (missing cap = int64 max) are dropped. -/
def apply_tenant_caps (cand : List ScoredRow) (tenant_caps : List TenantCap) :
    List ScoredRow :=
  let sorted := sortBy tenantLe cand
  let withCum := cumsumBy tenantKey bytesRow sorted (fun _ => 0)
  (withCum.filter (fun p =>
    decide (p.2 ≤ tenantCapOf tenant_caps p.1.r.tenant p.1.r.tier_dst))).map Prod.fst

/-! ## Stage 3: `coalesce_intervals` -/

/-- The coalescing group key `(node, tier_src, tier_dst, pcluster, layer)`. -/
def gKey (s : ScoredRow) : Int × Int × Int × Int × Int :=
  (s.r.node, s.r.tier_src, s.r.tier_dst, s.r.pcluster, s.r.layer)

/-- Sort key inside a coalescing group: `(page_start, page_end)`. -/
def peLe (a b : ScoredRow) : Bool :=
  decide (lex2 a.r.page_start a.r.page_end b.r.page_start b.r.page_end)

/-- Split a sorted group into runs.  A new run starts whenever a row's
`page_start` exceeds the previous row's `page_end + 1` (the source's
`shift(1)`-based `new_run` marker).  Returns the run containing `x` and the
later runs. -/
def runsFrom (x : ScoredRow) : List ScoredRow → List ScoredRow × List (List ScoredRow)
  | [] => ([x], [])
  | y :: ys =>
    let (run, rest) := runsFrom y ys
    if x.r.page_end + 1 < y.r.page_start then ([x], run :: rest)
    else (x :: run, rest)

def splitRuns : List ScoredRow → List (List ScoredRow)
  | [] => []
  | x :: xs =>
    let (run, rest) := runsFrom x xs
    run :: rest

/-- Union page count of a run: each row contributes
`max 0 (page_end − max page_start (E + 1) + 1)` where `E` is the running
cumulative max of `page_end` over earlier rows of the run (`−1` sentinel for
the first row, from the source's `fillna(-1)`). -/
def runPages (E : Int) : List ScoredRow → Int
  | [] => 0
  | s :: rest =>
    max 0 (s.r.page_end - max s.r.page_start (E + 1) + 1) +
      runPages (max E s.r.page_end) rest

/-- Aggregate one run into a `RunRow` (the `.agg` block of the source):
pages-sum times max page size, min deadline, row count, min urgency, min
start, max end. -/
def runAgg (k : Int × Int × Int × Int × Int) (rid : Int) :
    List ScoredRow → Option RunRow
  | [] => none
  | s :: rest =>
    let pb := rest.foldl (fun m t => max m t.r.page_bytes) s.r.page_bytes
    some
      { node := k.1
        tier_src := k.2.1
        tier_dst := k.2.2.1
        pcluster := k.2.2.2.1
        layer := k.2.2.2.2
        run_id := rid
        bytes := runPages (-1) (s :: rest) * pb
        deadline_ms := rest.foldl (fun m t => min m t.r.deadline_ms) s.r.deadline_ms
        fanout := (s :: rest).length
        urgency_min := rest.foldl (fun m t => min m t.urgency) s.urgency
        start_pid := rest.foldl (fun m t => min m t.r.page_start) s.r.page_start
        end_pid := rest.foldl (fun m t => max m t.r.page_end) s.r.page_end
        page_bytes := pb }

/-- Coalesce one already-sorted group.  `run_id` is the running count of
`new_run` markers: the first row's marker is `page_start > 0` (the group-level
`fillna(-1)` sentinel), every later run adds one. -/
def coalesceGroup (min_io_bytes : Int) (k : Int × Int × Int × Int × Int)
    (g : List ScoredRow) : List RunRow :=
  let base : Int :=
    match g.head? with
    | some s => if 0 < s.r.page_start then 1 else 0
    | none => 0
  let runs := (splitRuns g).enum
  (runs.filterMap (fun (i, run) => runAgg k (base + (i : Int)) run)).filter
    (fun rr => decide (min_io_bytes ≤ rr.bytes))

/-- Model of `pipeline.coalesce_intervals` (also the coalescing block of
`run_window_core`): sort candidates by
`(node, tier_src, tier_dst, pcluster, layer, page_start, page_end)`, split
each group into runs of contiguous/overlapping intervals, aggregate, and keep
runs with at least `min_io_bytes` bytes. -/
def coalesce_intervals (cand : List ScoredRow) (min_io_bytes : Int) : List RunRow :=
  (dedupKeys (cand.map gKey)).flatMap (fun k =>
    coalesceGroup min_io_bytes k (sortBy peLe (cand.filter (fun s => decide (gKey s = k)))))

/-! ## Stages 4–5: `apply_caps` -/

/-- Effective per-tier cap `min(bandwidth_caps, free_bytes)` with int64-max
for a missing caps entry (a left merge followed by `fillna`).  Tier caps are
keyed by tier, so the first matching row is the joined one. -/
def effCap (tier_caps : List TierCap) (tier : Int) : Int :=
  match tier_caps.find? (fun c => decide (c.tier = tier)) with
  | some c => min c.bandwidth_caps c.free_bytes
  | none => INT64_MAX

/-- Per-layer latency with the 1.0 ms default for a missing row. -/
def latOf (layer_lat : List LayerLat) (layer : Int) : ℚ :=
  match layer_lat.find? (fun c => decide (c.layer = layer)) with
  | some c => c.lat_ms
  | none => 1

/-- Estimated copy time `(bytes / max(cap, 1)) * window_ms`, with a
non-positive or missing bandwidth cap replaced by 1 (the `where`/`maximum`
pair of the source). -/
def estCopyMs (tier_caps : List TierCap) (window_ms : Int) (r : RunRow) : ℚ :=
  let denom : ℚ :=
    match tier_caps.find? (fun c => decide (c.tier = r.tier_dst)) with
    | some c => if 0 < c.bandwidth_caps then (c.bandwidth_caps : ℚ) else 1
    | none => 1
  ((r.bytes : ℚ) / max denom 1) * (window_ms : ℚ)

/-- Overlap depth hint `min(3, 1 + [copy > lat] + [copy > 2·lat])`. -/
def overlapOf (tier_caps : List TierCap) (layer_lat : List LayerLat)
    (window_ms : Int) (r : RunRow) : Int :=
  let e := estCopyMs tier_caps window_ms r
  let l := latOf layer_lat r.layer
  min 3 (1 + (if l < e then 1 else 0) + (if 2 * l < e then 1 else 0))

/-- Projection of a surviving run to a plan row. -/
def toPlanRow (tier_caps : List TierCap) (layer_lat : List LayerLat)
    (window_ms : Int) (r : RunRow) : PlanRow :=
  { node := r.node
    tier_src := r.tier_src
    tier_dst := r.tier_dst
    pcluster := r.pcluster
    layer := r.layer
    run_id := r.run_id
    bytes := r.bytes
    deadline_ms := r.deadline_ms
    fanout := r.fanout
    overlap := overlapOf tier_caps layer_lat window_ms r
    priority := r.urgency_min
    start_pid := r.start_pid
    end_pid := r.end_pid
    page_bytes := r.page_bytes }

/-- Sort key of stage 4: `(node, tier_src, tier_dst, deadline_ms)`. -/
def capLe (a b : RunRow) : Bool :=
  decide (lex4 a.node a.tier_src a.tier_dst a.deadline_ms
               b.node b.tier_src b.tier_dst b.deadline_ms)

def capKey (r : RunRow) : Int × Int × Int := (r.node, r.tier_src, r.tier_dst)

def opKey (r : RunRow) : Int × Int := (r.node, r.tier_dst)

/-- Model of `pipeline.apply_caps` (also the capping block of
`run_window_core`): sort by deadline within `(node, tier_src, tier_dst)`,
drop rows whose cumulative bytes exceed `min(bandwidth_caps, free_bytes)`
when `enforce_tier_caps` is set, then drop rows ranked past
`max_ops_per_tier` within `(node, tier_dst)`, and annotate the survivors. -/
def apply_caps (plan_runs : List RunRow) (tier_caps : List TierCap)
    (layer_lat : List LayerLat) (window_ms max_ops_per_tier : Int)
    (enforce_tier_caps : Bool) : List PlanRow :=
  let sorted := sortBy capLe plan_runs
  let withCum := cumsumBy capKey (fun r => r.bytes) sorted (fun _ => 0)
  let kept :=
    if enforce_tier_caps then
      withCum.filter (fun p => decide (p.2 ≤ effCap tier_caps p.1.tier_dst))
    else withCum
  let rows := kept.map Prod.fst
  let ranked := cumsumBy opKey (fun _ => 1) rows (fun _ => 0)
  let limited := (ranked.filter (fun p => decide (p.2 ≤ max_ops_per_tier))).map Prod.fst
  limited.map (toPlanRow tier_caps layer_lat window_ms)

/-! ## Correctness of the coalescer's run aggregation -/

/-- Two consecutive rows stay in the same run exactly when the second starts
at or before one page past the first's end. -/
def runStep (a b : ScoredRow) : Prop :=
  b.r.page_start ≤ a.r.page_end + 1

theorem runsFrom_spec (xs : List ScoredRow) : ∀ x : ScoredRow,
    (runsFrom x xs).1.head? = some x ∧
    (runsFrom x xs).1 ++ (runsFrom x xs).2.flatten = x :: xs ∧
    List.Chain' runStep (runsFrom x xs).1 ∧
    (∀ l ∈ (runsFrom x xs).2, List.Chain' runStep l) := by
  induction xs with
  | nil =>
    intro x
    refine ⟨rfl, rfl, List.chain'_singleton x, ?_⟩
    intro l hl
    simp [runsFrom] at hl
  | cons y ys ih =>
    intro x
    obtain ⟨ihhead, ihjoin, ihchain, ihrest⟩ := ih y
    by_cases hgap : x.r.page_end + 1 < y.r.page_start
    · have hrw : runsFrom x (y :: ys) = ([x], (runsFrom y ys).1 :: (runsFrom y ys).2) := by
        simp [runsFrom, hgap]
      rw [hrw]
      refine ⟨rfl, ?_, List.chain'_singleton x, ?_⟩
      · simpa using ihjoin
      · intro l hl
        rcases List.mem_cons.mp hl with rfl | hl
        · exact ihchain
        · exact ihrest l hl
    · have hrw : runsFrom x (y :: ys) = (x :: (runsFrom y ys).1, (runsFrom y ys).2) := by
        simp [runsFrom, hgap]
      rw [hrw]
      refine ⟨rfl, ?_, ?_, ihrest⟩
      · simpa using ihjoin
      · refine List.chain'_cons'.mpr ⟨?_, ihchain⟩
        intro z hz
        rw [ihhead] at hz
        simp only [Option.mem_def, Option.some.injEq] at hz
        subst hz
        exact le_of_not_lt hgap

theorem splitRuns_flatten (g : List ScoredRow) : (splitRuns g).flatten = g := by
  cases g with
  | nil => rfl
  | cons x xs =>
    obtain ⟨_, hjoin, _, _⟩ := runsFrom_spec xs x
    simpa [splitRuns] using hjoin

theorem splitRuns_chain (g : List ScoredRow) (l : List ScoredRow)
    (hl : l ∈ splitRuns g) : List.Chain' runStep l := by
  cases g with
  | nil => simp [splitRuns] at hl
  | cons x xs =>
    obtain ⟨_, _, hchain, hrest⟩ := runsFrom_spec xs x
    simp only [splitRuns, List.mem_cons] at hl
    rcases hl with rfl | hl
    · exact hchain
    · exact hrest l hl

theorem splitRuns_sublist (g : List ScoredRow) (l : List ScoredRow)
    (hl : l ∈ splitRuns g) : l.Sublist g := by
  cases g with
  | nil => simp [splitRuns] at hl
  | cons x xs =>
    obtain ⟨_, hjoin, _, _⟩ := runsFrom_spec xs x
    simp only [splitRuns, List.mem_cons] at hl
    rcases hl with rfl | hl
    · have h1 := List.sublist_append_left (runsFrom x xs).1 (runsFrom x xs).2.flatten
      rwa [hjoin] at h1
    · have h1 := List.sublist_flatten_of_mem hl
      have h2 := List.sublist_append_right (runsFrom x xs).1 (runsFrom x xs).2.flatten
      have h3 := h1.trans h2
      rwa [hjoin] at h3

/-- Folding `min` over values all at least the seed leaves the seed. -/
theorem foldl_min_of_le {α : Type} (f : α → Int) (a : Int) :
    ∀ l : List α, (∀ x ∈ l, a ≤ f x) → l.foldl (fun m t => min m (f t)) a = a := by
  intro l
  induction l with
  | nil => intro _; rfl
  | cons x xs ih =>
    intro h
    have ha : min a (f x) = a := min_eq_left (h x (List.mem_cons_self _ _))
    simp only [List.foldl_cons, ha]
    exact ih (fun y hy => h y (List.mem_cons_of_mem _ hy))

/-- Telescoping sum: once the chain condition links every row to the running
cumulative max of ends, the per-row contributions sum to the distance from
the seed to the final cumulative max. -/
theorem runPages_telescope :
    ∀ (rs : List ScoredRow) (E : Int), List.Chain' runStep rs →
      (∀ hd ∈ rs.head?, hd.r.page_start ≤ E + 1) →
      runPages E rs = rs.foldl (fun m t => max m t.r.page_end) E - E := by
  intro rs
  induction rs with
  | nil => intro E _ _; simp [runPages]
  | cons s rest ih =>
    intro E hchain hhd
    have hs : s.r.page_start ≤ E + 1 := hhd s rfl
    obtain ⟨hstep, hchain'⟩ := List.chain'_cons'.mp hchain
    have hrec := ih (max E s.r.page_end) hchain' ?_
    · simp only [runPages, List.foldl_cons]
      rw [hrec]
      have h1 : max s.r.page_start (E + 1) = E + 1 := max_eq_right hs
      rw [h1]
      omega
    · intro z hz
      have := hstep z hz
      unfold runStep at this
      omega

/-- The aggregated bytes of a run equal the page span times the aggregated
page size, provided every row has a non-negative start and a non-empty
interval (the `KVRequest` invariants `page_start ≥ 0`, `page_end ≥
page_start`), the run is sorted by `page_start`, and consecutive rows satisfy
the run condition. -/
theorem runAgg_bytes_eq (k : Int × Int × Int × Int × Int) (rid : Int)
    (s : ScoredRow) (rest : List ScoredRow) (rr : RunRow)
    (hchain : List.Chain' runStep (s :: rest))
    (hsorted : (s :: rest).Pairwise (fun a b => a.r.page_start ≤ b.r.page_start))
    (hvalid : ∀ x ∈ s :: rest, 0 ≤ x.r.page_start ∧ x.r.page_start ≤ x.r.page_end)
    (h : runAgg k rid (s :: rest) = some rr) :
    rr.bytes = (rr.end_pid - rr.start_pid + 1) * rr.page_bytes := by
  obtain ⟨hs0, hse⟩ := hvalid s (List.mem_cons_self _ _)
  obtain ⟨hstep, hchain'⟩ := List.chain'_cons'.mp hchain
  have hpages : runPages (-1) (s :: rest) =
      rest.foldl (fun m t => max m t.r.page_end) s.r.page_end -
        s.r.page_start + 1 := by
    have h1 : max s.r.page_start (-1 + 1) = s.r.page_start := by omega
    have h2 : max (-1) s.r.page_end = s.r.page_end := by omega
    have htel := runPages_telescope rest s.r.page_end hchain' ?_
    · simp only [runPages, h1, h2]
      rw [htel]
      omega
    · intro z hz
      have := hstep z hz
      unfold runStep at this
      omega
  have hstart : rest.foldl (fun m t => min m t.r.page_start) s.r.page_start =
      s.r.page_start := by
    refine foldl_min_of_le _ _ rest ?_
    intro x hx
    exact (List.pairwise_cons.mp hsorted).1 x hx
  simp only [runAgg, Option.some.injEq] at h
  subst h
  simp only []
  rw [hpages, hstart]

theorem peLe_total (a b : ScoredRow) : peLe a b = false → peLe b a = true := by
  simp only [peLe, lex2, decide_eq_false_iff_not, decide_eq_true_eq]
  intro h
  omega

theorem peLe_trans (a b c : ScoredRow) :
    peLe a b = true → peLe b c = true → peLe a c = true := by
  simp only [peLe, lex2, decide_eq_true_eq]
  intro h1 h2
  omega

/-- A group sorted by `(page_start, page_end)` is pairwise nondecreasing in
`page_start`. -/
theorem sortBy_peLe_start (l : List ScoredRow) :
    (sortBy peLe l).Pairwise (fun a b => a.r.page_start ≤ b.r.page_start) := by
  refine (sortBy_pairwise peLe peLe_total peLe_trans l).imp ?_
  intro a b h
  simp only [peLe, lex2, decide_eq_true_eq] at h
  omega

/-- Every row of `coalesce_intervals` output comes from aggregating some run
of some sorted group. -/
theorem mem_coalesce_intervals (cand : List ScoredRow) (min_io_bytes : Int)
    (rr : RunRow) (h : rr ∈ coalesce_intervals cand min_io_bytes) :
    ∃ (k : Int × Int × Int × Int × Int) (rid : Int) (run : List ScoredRow),
      run ∈ splitRuns (sortBy peLe (cand.filter (fun s => decide (gKey s = k)))) ∧
      runAgg k rid run = some rr ∧ min_io_bytes ≤ rr.bytes := by
  unfold coalesce_intervals at h
  rcases List.mem_flatMap.mp h with ⟨k, _, hgrp⟩
  unfold coalesceGroup at hgrp
  rcases List.mem_filter.mp hgrp with ⟨hfm, hmin⟩
  rcases List.mem_filterMap.mp hfm with ⟨⟨i, run⟩, hmem, hagg⟩
  refine ⟨k, _, run, ?_, hagg, by simpa using hmin⟩
  have := List.mem_map_of_mem Prod.snd hmem
  rwa [List.enum_map_snd] at this

/-- Row-level invariant of the coalescer: given the `KVRequest` invariants,
every emitted run satisfies `bytes = (end_pid − start_pid + 1) ×
page_bytes`. -/
theorem coalesce_intervals_bytes (cand : List ScoredRow) (min_io_bytes : Int)
    (hvalid : ∀ s ∈ cand, 0 ≤ s.r.page_start ∧ s.r.page_start ≤ s.r.page_end)
    (rr : RunRow) (h : rr ∈ coalesce_intervals cand min_io_bytes) :
    rr.bytes = (rr.end_pid - rr.start_pid + 1) * rr.page_bytes := by
  rcases mem_coalesce_intervals cand min_io_bytes rr h with ⟨k, rid, run, hrun, hagg, _⟩
  set g := sortBy peLe (cand.filter (fun s => decide (gKey s = k))) with hg
  have hsub := splitRuns_sublist g run hrun
  have hchain := splitRuns_chain g run hrun
  have hsorted : run.Pairwise (fun a b => a.r.page_start ≤ b.r.page_start) :=
    (sortBy_peLe_start _).sublist hsub
  have hval : ∀ x ∈ run, 0 ≤ x.r.page_start ∧ x.r.page_start ≤ x.r.page_end := by
    intro x hx
    have hxg : x ∈ g := hsub.subset hx
    rw [hg, mem_sortBy] at hxg
    exact hvalid x (List.mem_of_mem_filter hxg)
  cases run with
  | nil => simp [runAgg] at hagg
  | cons s rest => exact runAgg_bytes_eq k rid s rest rr hchain hsorted hval hagg

/-- Every plan row of `apply_caps` is the annotation of some input run. -/
theorem mem_apply_caps (plan_runs : List RunRow) (tier_caps : List TierCap)
    (layer_lat : List LayerLat) (window_ms max_ops_per_tier : Int)
    (enforce_tier_caps : Bool) (p : PlanRow)
    (h : p ∈ apply_caps plan_runs tier_caps layer_lat window_ms
          max_ops_per_tier enforce_tier_caps) :
    ∃ r ∈ plan_runs, p = toPlanRow tier_caps layer_lat window_ms r := by
  unfold apply_caps at h
  rcases List.mem_map.mp h with ⟨r, hr, rfl⟩
  rcases List.mem_map.mp hr with ⟨q, hq, rfl⟩
  have hq1 := fst_mem_of_mem_cumsumBy _ _ _ _ _ (List.mem_of_mem_filter hq)
  rcases List.mem_map.mp hq1 with ⟨pr, hpr, hpr1⟩
  have hpr2 : pr ∈ cumsumBy capKey (fun r => r.bytes) (sortBy capLe plan_runs)
      (fun _ => 0) := by
    by_cases he : enforce_tier_caps
    · simp only [he, if_true] at hpr
      exact List.mem_of_mem_filter hpr
    · simp only [he, if_false] at hpr
      exact hpr
  have hpr3 := fst_mem_of_mem_cumsumBy _ _ _ _ _ hpr2
  rw [mem_sortBy] at hpr3
  exact ⟨pr.1, hpr3, by rw [hpr1]⟩

/-- Claim C1 core: composing the coalescer and the cap stage, every final
plan row satisfies the byte equation. -/
theorem pipeline_bytes_eq (cand : List ScoredRow)
    (min_io_bytes window_ms max_ops_per_tier : Int) (tier_caps : List TierCap)
    (layer_lat : List LayerLat) (enforce_tier_caps : Bool)
    (hvalid : ∀ s ∈ cand, 0 ≤ s.r.page_start ∧ s.r.page_start ≤ s.r.page_end)
    (p : PlanRow)
    (h : p ∈ apply_caps (coalesce_intervals cand min_io_bytes) tier_caps
          layer_lat window_ms max_ops_per_tier enforce_tier_caps) :
    p.bytes = (p.end_pid - p.start_pid + 1) * p.page_bytes := by
  rcases mem_apply_caps _ _ _ _ _ _ _ h with ⟨r, hr, rfl⟩
  have := coalesce_intervals_bytes cand min_io_bytes hvalid r hr
  simpa [toPlanRow] using this

theorem mem_plan_runs_of_mem_rows (plan_runs : List RunRow) (tier_caps : List TierCap)
    (r : RunRow)
    (hr : r ∈ ((cumsumBy capKey (fun t => t.bytes) (sortBy capLe plan_runs)
        (fun _ => 0)).filter
          (fun p => decide (p.2 ≤ effCap tier_caps p.1.tier_dst))).map Prod.fst) :
    r ∈ plan_runs := by
  rcases List.mem_map.mp hr with ⟨pr, hpr, rfl⟩
  have h1 := fst_mem_of_mem_cumsumBy _ _ _ _ _ (List.mem_of_mem_filter hpr)
  rwa [mem_sortBy] at h1

/-- Claim C2 core: with `enforce_tier_caps = true` and non-negative run
bytes, the final plan's bytes within any `(node, tier_src, tier_dst)` group
that actually occurs in the plan total at most the group's effective cap
`min(bandwidth_caps, free_bytes)` (int64 max when the caps table has no entry
for the destination tier). -/
theorem apply_caps_group_sum_le (plan_runs : List RunRow)
    (tier_caps : List TierCap) (layer_lat : List LayerLat)
    (window_ms max_ops_per_tier : Int)
    (hnn : ∀ r ∈ plan_runs, 0 ≤ r.bytes) (k : Int × Int × Int)
    (hne : ∃ p ∈ apply_caps plan_runs tier_caps layer_lat window_ms
            max_ops_per_tier true, (p.node, p.tier_src, p.tier_dst) = k) :
    (((apply_caps plan_runs tier_caps layer_lat window_ms max_ops_per_tier
        true).filter (fun p => decide ((p.node, p.tier_src, p.tier_dst) = k))).map
      (fun p => p.bytes)).sum ≤ effCap tier_caps k.2.2 := by
  have hsortnn : ∀ r ∈ sortBy capLe plan_runs, 0 ≤ r.bytes := by
    intro r hr
    exact hnn r ((mem_sortBy _ _ _).mp hr)
  -- name the stages
  set C := effCap tier_caps k.2.2 with hC
  set withCum := cumsumBy capKey (fun t => t.bytes) (sortBy capLe plan_runs)
    (fun _ => 0) with hwithCum
  set kept := withCum.filter
    (fun p => decide (p.2 ≤ effCap tier_caps p.1.tier_dst)) with hkept
  set rows := kept.map Prod.fst with hrows
  set ranked := cumsumBy opKey (fun _ => (1 : Int)) rows (fun _ => 0) with hranked
  set limited := (ranked.filter (fun p => decide (p.2 ≤ max_ops_per_tier))).map
    Prod.fst with hlimited
  have hout : apply_caps plan_runs tier_caps layer_lat window_ms
      max_ops_per_tier true =
      limited.map (toPlanRow tier_caps layer_lat window_ms) := rfl
  -- push the filter and the byte projection through `toPlanRow`
  have h1 : ((apply_caps plan_runs tier_caps layer_lat window_ms
        max_ops_per_tier true).filter
          (fun p => decide ((p.node, p.tier_src, p.tier_dst) = k))).map
        (fun p => p.bytes) =
      (limited.filter (fun r => decide (capKey r = k))).map (fun r => r.bytes) := by
    rw [hout, List.filter_map, List.map_map]
    rfl
  rw [h1]
  -- survivors of the op-rank stage are a sublist of the cap-stage survivors
  have h2 : limited.Sublist rows := by
    have hf := (List.filter_sublist
      (p := fun p => decide (p.2 ≤ max_ops_per_tier)) ranked).map Prod.fst
    rwa [hranked, cumsumBy_map_fst] at hf
  have hrowsmem : ∀ r ∈ rows, r ∈ plan_runs := by
    intro r hr
    exact mem_plan_runs_of_mem_rows plan_runs tier_caps r hr
  have h3 : ((limited.filter (fun r => decide (capKey r = k))).map
        (fun r => r.bytes)).sum ≤
      ((rows.filter (fun r => decide (capKey r = k))).map (fun r => r.bytes)).sum := by
    refine List.Sublist.sum_le_sum ((h2.filter _).map _) ?_
    intro b hb
    rcases List.mem_map.mp hb with ⟨r, hr, rfl⟩
    exact hnn r (hrowsmem r (List.mem_of_mem_filter hr))
  refine le_trans h3 ?_
  -- rewrite the cap-stage survivors with key `k` into `capFilter` form
  have h4 : (rows.filter (fun r => decide (capKey r = k))).map (fun r => r.bytes) =
      ((withCum.filter (capFilter capKey k C)).map (fun p => p.1.bytes)) := by
    rw [hrows, List.filter_map, hkept, List.filter_filter, List.map_map]
    refine congrArg _ (List.filter_congr ?_)
    intro p _
    by_cases hk : capKey p.1 = k
    · have htd : p.1.tier_dst = k.2.2 := by
        rw [← hk]
        rfl
      simp [capFilter, hk, htd, ← hC, Function.comp]
    · simp [capFilter, hk, Function.comp]
  rw [h4]
  -- nonemptiness of the group pins the cap to be non-negative
  have hCnn : 0 ≤ C := by
    rcases hne with ⟨p, hp, hpk⟩
    rw [hout] at hp
    rcases List.mem_map.mp hp with ⟨r, hrl, rfl⟩
    have hrrows : r ∈ rows := h2.subset hrl
    rcases List.mem_map.mp hrrows with ⟨pr, hprk, hpr1⟩
    rcases List.mem_filter.mp hprk with ⟨hprw, hprc⟩
    have hkey : capKey pr.1 = k := by
      rw [hpr1]
      exact hpk
    have htd : pr.1.tier_dst = k.2.2 := by
      rw [← hkey]
      rfl
    rw [decide_eq_true_eq, htd, ← hC] at hprc
    have hnn2 : 0 ≤ pr.2 := by
      refine cumsumBy_snd_nonneg capKey (fun t => t.bytes) pr _ _ hsortnn
        (fun _ => le_refl 0) hprw
    omega
  have h5 := cumsumBy_filter_sum_le capKey (fun t => t.bytes) k C
    (sortBy capLe plan_runs) (fun _ => 0) hsortnn
  have h6 : ((withCum.filter (capFilter capKey k C)).map (fun p => p.1.bytes)).sum ≤
      max C 0 := by
    simpa [hwithCum] using h5
  rw [max_eq_left hCnn] at h6
  exact h6

/-! ## Admission (`scheduler.admission_core_py` / `admission_core`) -/

structure AdmitRow where
  layer : Int
  page_id : Int
  tier_dst : Int
deriving DecidableEq

/-- Keep the first row of every key, models
`groupby(keys).agg(first).reset_index()` up to key order (pandas sorts the
group keys; every property proved about it is order-insensitive). -/
def dedupByKey {α κ : Type} [DecidableEq κ] (key : α → κ) (seen : List κ) :
    List α → List α
  | [] => []
  | x :: xs =>
    if key x ∈ seen then dedupByKey key seen xs
    else x :: dedupByKey key (key x :: seen) xs

/-- The merge rows one request contributes: one
`(layer, page_id, decay_hits)` triple per matching heat row, a single
zero-decay triple when the heat row is missing (`fillna(0)`). -/
def admitRowTriples (heat : List HeatRow) (r : ReqRow) : List (Int × Int × Int) :=
  let ms := heatMatches heat r.layer r.page_start
  if ms.isEmpty then [(r.layer, r.page_start, 0)]
  else ms.map (fun h => (r.layer, r.page_start, h.decay_hits))

/-- The requests-heat left merge of the admission decision. -/
def admitMerged (requests : List ReqRow) (heat : List HeatRow) :
    List (Int × Int × Int) :=
  requests.flatMap (admitRowTriples heat)

/-- Model of `admission_core_py` (and of the identically-coded
`admission_core`): join heat by `(layer, page_start)`, keep rows with
`decay_hits ≥ reuse_threshold`, emit `(layer, page_id, tier_dst = 0)` and
deduplicate on `(layer, page_id)`. -/
def admission_core_py (requests : List ReqRow) (heat : List HeatRow)
    (reuse_threshold : ℚ) : List AdmitRow :=
  let masked := (admitMerged requests heat).filter
    (fun t => decide (reuse_threshold ≤ (t.2.2 : ℚ)))
  (dedupByKey (fun t => (t.1, t.2.1)) [] masked).map
    (fun t => { layer := t.1, page_id := t.2.1, tier_dst := 0 })

/-- The `decay_hits` joined for `(layer, page_id)` when the heat table keys
are unique, with the merge's `fillna(0)` default. -/
def decayOf (heat : List HeatRow) (layer page_id : Int) : Int :=
  match heat.find? (fun h => decide (h.layer = layer ∧ h.page_id = page_id)) with
  | some h => h.decay_hits
  | none => 0

/-! ## Eviction (`scheduler.eviction_core_py` / `eviction_core`) -/

/-- Planned bytes per destination tier:
`plan.groupby("tier_dst").agg(bytes=sum)` (group-key order is irrelevant to
everything proved below). -/
def usedByTier (plan : List PlanRow) : List (Int × Int) :=
  (dedupKeys (plan.map (fun p => p.tier_dst))).map (fun t =>
    (t, ((plan.filter (fun p => decide (p.tier_dst = t))).map
      (fun p => p.bytes)).sum))

def freeOf (tier_caps : List TierCap) (tier : Int) : Option Int :=
  (tier_caps.find? (fun c => decide (c.tier = tier))).map (fun c => c.free_bytes)

/-- Per-tier positive deficits `bytes − free_bytes` (rows with `deficit > 0`
of the source's `need` frame). -/
def evictionDeficits (plan : List PlanRow) (tier_caps : List TierCap) :
    List (Int × Int) :=
  ((usedByTier plan).map (fun u => (u.1, u.2 - (freeOf tier_caps u.1).getD 0))).filter
    (fun d => decide (0 < d.2))

def evictionTarget (plan : List PlanRow) (tier_caps : List TierCap) : Int :=
  ((evictionDeficits plan tier_caps).map (fun d => d.2)).sum

/-- Heat sort key of the eviction scan: ascending `decay_hits`. -/
def decayLe (a b : HeatRow) : Bool :=
  decide (a.decay_hits ≤ b.decay_hits)

/-- The heat rows the eviction scan keeps: coldest first, while the running
`size_bytes` total stays within the summed deficit. -/
def evictionKept (plan : List PlanRow) (heat : List HeatRow)
    (tier_caps : List TierCap) : List HeatRow :=
  ((cumsumBy (fun _ => ()) (fun h => h.size_bytes) (sortBy decayLe heat)
      (fun _ => 0)).filter
    (fun p => decide (p.2 ≤ evictionTarget plan tier_caps))).map Prod.fst

/-- Model of `eviction_core_py` (and of the identically-coded
`eviction_core`).  A destination tier absent from the caps table makes the
source's `astype(np.int64)` raise on the NaN deficit, hence the error
branch. -/
def eviction_core_py (plan : List PlanRow) (heat : List HeatRow)
    (tier_caps : List TierCap) : Except String (List (Int × Int)) :=
  if plan.isEmpty then .ok []
  else if (usedByTier plan).any (fun u => (freeOf tier_caps u.1).isNone) then
    .error "cannot convert non-finite values to integer"
  else if (evictionDeficits plan tier_caps).isEmpty then .ok []
  else .ok ((evictionKept plan heat tier_caps).map (fun h => (h.layer, h.page_id)))

/-! ## `run_window` (`planner/scheduler.py`) -/

/-- Position of the first occurrence of `x` (used by `pd.factorize`). -/
def firstIdxInt {α : Type} [DecidableEq α] (x : α) : List α → Int
  | [] => 0
  | y :: ys => if x = y then 0 else firstIdxInt x ys + 1

/-- `pd.factorize(prefix_id)`: dense codes in first-appearance order, stored
into `pcluster`. -/
def setPcluster (rows : List ReqRow) : List ReqRow :=
  let distinct := dedupKeys (rows.map (fun r => r.prefix_id))
  rows.map (fun r => { r with pcluster := firstIdxInt r.prefix_id distinct })

/-- The head of `run_window`: when the `pcluster` column is missing, work on
a copy of the requests table extended with factorized prefix clusters (the
caller's table is then never touched). -/
def prepReq (t : ReqTable) : ReqTable :=
  if t.hasPcluster then t
  else { rows := setPcluster t.rows, hasPcluster := true, hasPageId := t.hasPageId }

/-- The in-place `df["page_id"] = df["page_start"]` that `run_window_core`
and `admission_core` perform on the requests table when they run as plain
Python (Bodo absent, its `jit` a no-op shim). -/
def mutateReq (t : ReqTable) : ReqTable :=
  { rows := t.rows.map (fun r => { r with page_id := r.page_start })
    hasPcluster := t.hasPcluster
    hasPageId := true }

/-- The planner pipeline proper: the column computations of
`run_window_core` and the staged `run_window_core_py` are the same relational
program (score, tenant gate, coalesce, cap). -/
def runWindowCorePlan (requests : List ReqRow) (heat : List HeatRow)
    (tier_caps : List TierCap) (tenant_caps : List TenantCap)
    (layer_lat : List LayerLat) (now_ms : Int) (pmin umin : ℚ)
    (min_io_bytes : Int) (alpha beta : ℚ) (window_ms max_ops_per_tier : Int)
    (enforce_tier_caps : Bool) : List PlanRow :=
  apply_caps
    (coalesce_intervals
      (apply_tenant_caps (score_and_filter requests heat now_ms pmin umin alpha beta)
        tenant_caps)
      min_io_bytes)
    tier_caps layer_lat window_ms max_ops_per_tier enforce_tier_caps

instance {ε α : Type} [DecidableEq ε] [DecidableEq α] : DecidableEq (Except ε α) :=
  fun x y =>
    match x, y with
    | .error a, .error b =>
      if h : a = b then .isTrue (by rw [h])
      else .isFalse (by intro hc; cases hc; exact h rfl)
    | .ok a, .ok b =>
      if h : a = b then .isTrue (by rw [h])
      else .isFalse (by intro hc; cases hc; exact h rfl)
    | .error _, .ok _ => .isFalse (by intro hc; cases hc)
    | .ok _, .error _ => .isFalse (by intro hc; cases hc)

/-- What one `run_window` call produces, plus the state of the caller's
requests table after the call (an eviction error propagates out of
`run_window`, which the `evict` component records). -/
structure WindowResult where
  plan : List PlanRow
  evict : Except String (List (Int × Int))
  admission : List AdmitRow
  requestsAfter : ReqTable
deriving DecidableEq

/-- Model of `run_window`.  `force_py` is the `BODOCACHE_PURE_PY` switch; in
the environment being modelled Bodo is not importable, so the non-forced path
runs `run_window_core`/`admission_core` as plain Python, whose first
statement assigns the requests table's `page_id` column in place. -/
def run_window (force_py : Bool) (t : ReqTable) (heat : HeatTable)
    (tier_caps : List TierCap) (tenant_caps : List TenantCap)
    (layer_lat : List LayerLat) (now_ms : Int) (pmin umin : ℚ)
    (min_io_bytes : Int) (alpha beta : ℚ) (window_ms max_ops_per_tier : Int)
    (enable_admission enable_eviction enforce_tier_caps : Bool) : WindowResult :=
  let t1 := prepReq t
  let plan := runWindowCorePlan t1.rows heat.rows tier_caps tenant_caps layer_lat
    now_ms pmin umin min_io_bytes alpha beta window_ms max_ops_per_tier
    enforce_tier_caps
  let t2 := if force_py then t1 else mutateReq t1
  let heat2 := if heat.hasSize then heat.rows
    else heat.rows.map (fun h => { h with size_bytes := 262144 })
  let evict := if enable_eviction then eviction_core_py plan heat2 tier_caps
    else .ok []
  let adm := if enable_admission then admission_core_py t2.rows heat.rows 10 else []
  let t3 := if enable_admission && !force_py then mutateReq t2 else t2
  { plan := plan
    evict := evict
    admission := adm
    requestsAfter := if t.hasPcluster then t3 else t }

/-! ## Wave tile grids (`planner/waves.py`) -/

/-- Model of `_build_swizzle`: row-major cells, odd rows reversed (snake). -/
def buildSwizzle (rows cols : Nat) : List (Nat × Nat) :=
  (List.range rows).flatMap (fun r =>
    if r % 2 = 0 then (List.range cols).map (fun c => (r, c))
    else ((List.range cols).reverse).map (fun c => (r, c)))

/-- Largest `j ≤ k` with `j·j ≤ n` (0 when none): a structural evaluator
for `math.floor(math.sqrt(n))`. -/
def sqrtDown (n : Nat) : Nat → Nat
  | 0 => 0
  | k + 1 => if (k + 1) * (k + 1) ≤ n then k + 1 else sqrtDown n k

/-- Model of `int(math.floor(math.sqrt(n)))` (exact for every op count a
plan can hold). -/
def floorSqrt (n : Nat) : Nat :=
  sqrtDown n n

theorem sqrtDown_eq (n : Nat) :
    ∀ k, Nat.sqrt n ≤ k → sqrtDown n k = Nat.sqrt n := by
  intro k
  induction k with
  | zero =>
    intro h
    unfold sqrtDown
    omega
  | succ m ih =>
    intro h
    unfold sqrtDown
    by_cases hle : (m + 1) * (m + 1) ≤ n
    · rw [if_pos hle]
      have h2 : m + 1 ≤ Nat.sqrt n := Nat.le_sqrt.mpr hle
      omega
    · rw [if_neg hle]
      refine ih ?_
      have h2 : ¬ (m + 1 ≤ Nat.sqrt n) := fun hc => hle (Nat.le_sqrt.mp hc)
      omega

theorem floorSqrt_eq (n : Nat) : floorSqrt n = Nat.sqrt n :=
  sqrtDown_eq n n (Nat.sqrt_le_self n)

/-- The `while rows * cols < tiles: cols += 1` loop of `build_wave_specs`
(reached only with `r = max(rows, 1) ≥ 1` in the source; the `0 < r` guard
makes the definition total without changing its value there). -/
def growCols (r tiles cols : Nat) : Nat :=
  if h : 0 < r ∧ r * cols < tiles then growCols r tiles (cols + 1) else cols
termination_by tiles - r * cols
decreasing_by
  obtain ⟨hr, hlt⟩ := h
  have : r * cols + r ≤ r * (cols + 1) := by ring_nf; omega
  omega

/-- The tile-grid sizing of `build_wave_specs`:
`rows = floor(sqrt(tiles))`, `cols = ceil(tiles / max(1, rows))`, then the
coverage patch-up (`rows = max(rows, 1)` and the widening loop) when the grid
falls short. -/
def tileGrid (tiles : Nat) : Nat × Nat :=
  let rows := floorSqrt tiles
  let cols := (tiles + max 1 rows - 1) / max 1 rows
  if rows * cols < tiles then (max rows 1, growCols (max rows 1) tiles cols)
  else (rows, cols)

/-- The `tile_order` a wave gets for a group with `nExtents` io extents:
the snake swizzle of the grid for `tiles = max 1 nExtents`, truncated to
`tiles`. -/
def tileOrderFor (nExtents : Nat) : List (Nat × Nat) :=
  let tiles := max 1 nExtents
  let g := tileGrid tiles
  (buildSwizzle g.1 g.2).take tiles

/-- Number of io extents of a plan group: one per row with
`end_pid ≥ start_pid`. -/
def countExtents (g : List PlanRow) : Nat :=
  (g.filter (fun r => decide (r.start_pid ≤ r.end_pid))).length

/-- The per-(node, tier_dst) group tile order produced by
`build_wave_specs`. -/
def waveTileOrder (g : List PlanRow) : List (Nat × Nat) :=
  tileOrderFor (countExtents g)

/-- Modelled from the spec's words for comparison with the source: a grid of
`⌈√n⌉` rows by `⌈n / ⌈√n⌉⌉` columns covered by the snake swizzle, truncated
to `n`. -/
def ceilSqrt (n : Nat) : Nat :=
  if floorSqrt n * floorSqrt n = n then floorSqrt n else floorSqrt n + 1

/-- Modelled from the spec's words (§4.G): the tile order the specification
describes, to be compared against `tileOrderFor`. -/
def tileOrderSpec (n : Nat) : List (Nat × Nat) :=
  let rows := ceilSqrt n
  let cols := (n + rows - 1) / rows
  (buildSwizzle rows cols).take n

/-! ## Node agent execution (`agent/node_agent.py` with `SimCopyEngine`) -/

/-- One `on_ready` payload: `{node, layer, start_pid, end_pid, bytes}`. -/
structure AgentEvent where
  node : Int
  layer : Int
  start_pid : Int
  end_pid : Int
  bytes : Int
deriving DecidableEq

def eventOf (r : PlanRow) : AgentEvent :=
  { node := r.node
    layer := r.layer
    start_pid := r.start_pid
    end_pid := r.end_pid
    bytes := (r.end_pid - r.start_pid + 1) * r.page_bytes }

/-- The stream of `on_ready` events `NodeAgent.execute` produces for a plan,
with segment files per layer in `store`.  Both executor paths behave alike
here: the engine path (pinned buffer of exactly `nbytes`, `read_range_into`,
one synchronous `SimCopyEngine` callback per submitted op) and the fallback
path (`read_range`, immediate `on_ready` when `nbytes > 0`) emit one event
per row exactly when `nbytes > 0` and the segment holds the range, and a read
failure propagates out of `execute`, ending the stream. -/
def executeEvents (store : Int → List Nat) : List PlanRow → List AgentEvent
  | [] => []
  | r :: rs =>
    let nbytes := if r.start_pid ≤ r.end_pid
      then (r.end_pid - r.start_pid + 1) * r.page_bytes else 0
    if 0 < nbytes then
      match read_range (store r.layer) r.start_pid.toNat r.end_pid.toNat
          r.page_bytes.toNat with
      | .error _ => []
      | .ok _ => eventOf r :: executeEvents store rs
    else executeEvents store rs

/-- The read of a plan row succeeds against the store. -/
def rowReadOk (store : Int → List Nat) (r : PlanRow) : Prop :=
  (read_range (store r.layer) r.start_pid.toNat r.end_pid.toNat
    r.page_bytes.toNat).isOk = true

instance (store : Int → List Nat) (r : PlanRow) : Decidable (rowReadOk store r) := by
  unfold rowReadOk
  infer_instance

/-! ## Claim theorems -/

/-- C4: `read_range` returns the empty byte string whenever
`end_pid < start_pid`; otherwise it raises exactly when the segment holds
fewer than `start_pid·page_bytes + (end_pid − start_pid + 1)·page_bytes`
bytes, and otherwise returns exactly `(end_pid − start_pid + 1)·page_bytes`
bytes. -/
theorem read_range_spec (seg : List Nat) (s e pb : Nat) :
    (e < s → read_range seg s e pb = .ok []) ∧
    (s ≤ e → ((∃ msg, read_range seg s e pb = .error msg) ↔
       seg.length < s * pb + (e - s + 1) * pb)) ∧
    (s ≤ e → s * pb + (e - s + 1) * pb ≤ seg.length →
       ∃ l, read_range seg s e pb = .ok l ∧ l.length = (e - s + 1) * pb) := by
  refine ⟨?_, ?_, ?_⟩
  · intro h
    simp [read_range, h]
  · intro hse
    have h1 : ¬ e < s := by omega
    by_cases h2 : seg.length < s * pb + (e - s + 1) * pb
    · simp [read_range, h1, h2]
    · have hlen : ((seg.drop (s * pb)).take ((e - s + 1) * pb)).length =
          (e - s + 1) * pb := by
        simp only [List.length_take, List.length_drop]
        omega
      simp [read_range, h1, h2, hlen]
  · intro hse hb
    have h1 : ¬ e < s := by omega
    have h2 : ¬ seg.length < s * pb + (e - s + 1) * pb := by omega
    have hlen : ((seg.drop (s * pb)).take ((e - s + 1) * pb)).length =
        (e - s + 1) * pb := by
      simp only [List.length_take, List.length_drop]
      omega
    refine ⟨(seg.drop (s * pb)).take ((e - s + 1) * pb), ?_, hlen⟩
    simp [read_range, h1, h2, hlen]

theorem read_range_spec_witness :
    (∃ l, read_range [1, 2, 3, 4] 1 1 2 = .ok l ∧ l.length = (1 - 1 + 1) * 2) ∧
    ((∃ msg, read_range [1, 2, 3] 1 1 2 = .error msg) ↔
      ([1, 2, 3] : List Nat).length < 1 * 2 + (1 - 1 + 1) * 2) ∧
    read_range [9] 7 2 3 = .ok [] :=
  ⟨(read_range_spec [1, 2, 3, 4] 1 1 2).2.2 (by decide) (by decide),
   (read_range_spec [1, 2, 3] 1 1 2).2.1 (by decide),
   (read_range_spec [9] 7 2 3).1 (by decide)⟩

theorem drop_append_of_length {α : Type} (A B : List α) (n : Nat)
    (h : A.length = n) : (A ++ B).drop n = B := by
  subst h
  exact List.drop_left A B

theorem take_append_of_length {α : Type} (A B : List α) (n : Nat)
    (h : A.length = n) : (A ++ B).take n = A := by
  subst h
  exact List.take_left A B

/-- C5: `write_page` of a full page followed by `read_range` over the same
single page returns exactly the bytes written. -/
theorem write_page_read_range_roundtrip (seg : List Nat) (p pb : Nat)
    (data : List Nat) (hlen : data.length = pb) :
    read_range (write_page seg p pb data) p p pb = .ok data := by
  set off := p * pb with hoff
  set padded := seg ++ List.replicate (off - seg.length) 0 with hpadded
  have hplen : off ≤ padded.length := by
    simp only [hpadded, List.length_append, List.length_replicate]
    omega
  have hA : (padded.take off).length = off := by
    simp only [List.length_take]
    omega
  have hw : write_page seg p pb data =
      padded.take off ++ (data ++ padded.drop (off + data.length)) := by
    simp [write_page, hpadded, hoff, List.append_assoc]
  have hdrop : (write_page seg p pb data).drop off =
      data ++ padded.drop (off + data.length) := by
    rw [hw]
    exact drop_append_of_length _ _ _ hA
  have htake : ((write_page seg p pb data).drop off).take pb = data := by
    rw [hdrop]
    exact take_append_of_length _ _ _ hlen
  have hwlen : off + pb ≤ (write_page seg p pb data).length := by
    rw [hw]
    rw [List.length_append, List.length_append, hA, hlen]
    omega
  have hsize1 : (p - p + 1) * pb = pb := by
    rw [Nat.sub_self, Nat.zero_add, Nat.one_mul]
  have hfalse : ¬ p < p := lt_irrefl p
  simp only [read_range, hfalse, if_false, hsize1, ← hoff]
  have hc2 : ¬ ((write_page seg p pb data).length < off + pb) := by omega
  rw [if_neg hc2, htake, if_neg (by rw [hlen]; exact fun h => h rfl)]

theorem write_page_read_range_roundtrip_witness :
    read_range (write_page [5, 5, 5] 1 2 [7, 9]) 1 1 2 = .ok [7, 9] :=
  write_page_read_range_roundtrip [5, 5, 5] 1 2 [7, 9] (by decide)

/-- C10: a failing `read_range_into` (read-only buffer, too-small buffer, or
short segment) leaves the buffer contents untouched; success writes exactly
the first `(end_pid − start_pid + 1)·page_bytes` bytes of the buffer from the
segment, leaves the bytes beyond that offset unchanged, and returns that size
(0 when `end_pid < start_pid`). -/
theorem read_range_into_spec (seg : List Nat) (s e pb : Nat) (ro : Bool)
    (buf : List Nat) :
    ((∃ msg, (read_range_into seg s e pb ro buf).1 = .error msg) →
       (read_range_into seg s e pb ro buf).2 = buf) ∧
    (e < s → read_range_into seg s e pb ro buf = (.ok 0, buf)) ∧
    (s ≤ e → ((∃ msg, (read_range_into seg s e pb ro buf).1 = .error msg) ↔
       (ro = true ∨ buf.length < (e - s + 1) * pb ∨
        seg.length < s * pb + (e - s + 1) * pb))) ∧
    (∀ n, (read_range_into seg s e pb ro buf).1 = .ok n → s ≤ e →
       n = (e - s + 1) * pb ∧
       (read_range_into seg s e pb ro buf).2.take ((e - s + 1) * pb) =
         (seg.drop (s * pb)).take ((e - s + 1) * pb) ∧
       (read_range_into seg s e pb ro buf).2.drop ((e - s + 1) * pb) =
         buf.drop ((e - s + 1) * pb) ∧
       (read_range_into seg s e pb ro buf).2.length = buf.length) := by
  by_cases h1 : e < s
  · refine ⟨?_, ?_, ?_, ?_⟩
    · intro _
      simp [read_range_into, h1]
    · intro _
      simp [read_range_into, h1]
    · intro hse
      omega
    · intro n _ hse
      omega
  · have hse : s ≤ e := by omega
    by_cases hro : ro = true
    · refine ⟨?_, ?_, ?_, ?_⟩
      · intro _
        simp [read_range_into, h1, hro]
      · intro h
        omega
      · intro _
        simp [read_range_into, h1, hro]
      · intro n hn
        simp [read_range_into, h1, hro] at hn
    · by_cases h2 : buf.length < (e - s + 1) * pb
      · refine ⟨?_, ?_, ?_, ?_⟩
        · intro _
          simp [read_range_into, h1, hro, h2]
        · intro h
          omega
        · intro _
          simp [read_range_into, h1, hro, h2]
        · intro n hn
          simp [read_range_into, h1, hro, h2] at hn
      · by_cases h3 : seg.length < s * pb + (e - s + 1) * pb
        · refine ⟨?_, ?_, ?_, ?_⟩
          · intro _
            simp [read_range_into, h1, hro, h2, h3]
          · intro h
            omega
          · intro _
            simp [read_range_into, h1, hro, h2, h3]
          · intro n hn
            simp [read_range_into, h1, hro, h2, h3] at hn
        · have hslice : ((seg.drop (s * pb)).take ((e - s + 1) * pb)).length =
              (e - s + 1) * pb := by
            simp only [List.length_take, List.length_drop]
            omega
          have hres : read_range_into seg s e pb ro buf =
              (.ok ((e - s + 1) * pb),
               (seg.drop (s * pb)).take ((e - s + 1) * pb) ++
                 buf.drop ((e - s + 1) * pb)) := by
            simp [read_range_into, h1, hro, h2, h3]
          refine ⟨?_, ?_, ?_, ?_⟩
          · intro hmsg
            rcases hmsg with ⟨msg, hm⟩
            rw [hres] at hm
            cases hm
          · intro h
            omega
          · intro _
            rw [hres]
            constructor
            · intro hmsg
              rcases hmsg with ⟨msg, hm⟩
              cases hm
            · intro hc
              rcases hc with hc | hc | hc
              · exact absurd hc hro
              · omega
              · omega
          · intro n hn hse2
            rw [hres] at hn ⊢
            refine ⟨by cases hn; rfl, ?_, ?_, ?_⟩
            · exact take_append_of_length _ _ _ hslice
            · exact drop_append_of_length _ _ _ hslice
            · rw [List.length_append, hslice, List.length_drop]
              omega

theorem read_range_into_spec_witness :
    (read_range_into [1, 2, 3, 4] 0 0 2 true [9, 9]).2 = [9, 9] ∧
    read_range_into [1, 2, 3, 4] 3 1 2 false [9, 9] = (.ok 0, [9, 9]) ∧
    (2 = (1 - 1 + 1) * 2 ∧
      (read_range_into [1, 2, 3, 4] 1 1 2 false [9, 9, 9]).2.take ((1 - 1 + 1) * 2) =
        (([1, 2, 3, 4] : List Nat).drop (1 * 2)).take ((1 - 1 + 1) * 2) ∧
      (read_range_into [1, 2, 3, 4] 1 1 2 false [9, 9, 9]).2.drop ((1 - 1 + 1) * 2) =
        ([9, 9, 9] : List Nat).drop ((1 - 1 + 1) * 2) ∧
      (read_range_into [1, 2, 3, 4] 1 1 2 false [9, 9, 9]).2.length =
        ([9, 9, 9] : List Nat).length) :=
  ⟨(read_range_into_spec [1, 2, 3, 4] 0 0 2 true [9, 9]).1
     ⟨"out_buf must be writable", by decide⟩,
   (read_range_into_spec [1, 2, 3, 4] 3 1 2 false [9, 9]).2.1 (by decide),
   (read_range_into_spec [1, 2, 3, 4] 1 1 2 false [9, 9, 9]).2.2.2 2 (by decide)
     (by decide)⟩

/-- Concrete candidate row for the C1 witness: one request spanning pages
0–1 at 300 bytes per page. -/
def c1row : ScoredRow :=
  { r := { req_id := 0, node := 0, prefix_id := 0, layer := 0, page_start := 0,
           page_end := 1, tier_src := 0, tier_dst := 1, deadline_ms := 5,
           page_bytes := 300, tenant := 0, est_fill_ms := 1, pcluster := 0,
           page_id := 0 }
    decay_hits := 0
    tenant_weight := 1
    pop := 0
    urgency := 1 }

theorem pipeline_bytes_eq_witness :
    (apply_caps (coalesce_intervals [c1row] 100) [] [] 20 64 true).length = 1 ∧
    (apply_caps (coalesce_intervals [c1row] 100) [] [] 20 64 true).all
      (fun p => decide (p.bytes = (p.end_pid - p.start_pid + 1) * p.page_bytes)) =
      true := by
  refine ⟨by decide, ?_⟩
  rw [List.all_eq_true]
  intro p hp
  rw [decide_eq_true_eq]
  exact pipeline_bytes_eq [c1row] 100 20 64 [] [] true (by decide) p hp

/-- Concrete run and caps for the C2 witness. -/
def c2run : RunRow :=
  { node := 0, tier_src := 0, tier_dst := 1, pcluster := 0, layer := 0,
    run_id := 1, bytes := 10, deadline_ms := 5, fanout := 1, urgency_min := 1,
    start_pid := 0, end_pid := 0, page_bytes := 10 }

def c2caps : List TierCap := [{ tier := 1, bandwidth_caps := 100, free_bytes := 50 }]

theorem apply_caps_group_sum_le_witness :
    (((apply_caps [c2run] c2caps [] 20 64 true).filter
        (fun p => decide ((p.node, p.tier_src, p.tier_dst) =
          ((0 : Int), (0 : Int), (1 : Int))))).map
      (fun p => p.bytes)).sum ≤ effCap c2caps 1 :=
  apply_caps_group_sum_le [c2run] c2caps [] 20 64 (by decide)
    ((0 : Int), (0 : Int), (1 : Int)) (by decide)

theorem mutateReq_idem (t : ReqTable) : mutateReq (mutateReq t) = mutateReq t := by
  simp only [mutateReq, List.map_map]
  rfl

/-- C3 (amended): `run_window` is a pure function of its inputs (equal inputs
give identical plan, eviction, admission and final state), and with
`BODOCACHE_PURE_PY` set, or when the requests table lacks a `pcluster` column
(so `run_window` works on an internal copy), the caller's tables are left
unmodified; in the remaining case — Bodo absent, `pcluster` present — the
plain-Python `run_window_core`/`admission_core` assign the requests table's
`page_id` column in place (`page_id := page_start`), and that column is the
only modification. -/
theorem run_window_state (fp : Bool) (t : ReqTable) (heat : HeatTable)
    (tc : List TierCap) (tenc : List TenantCap) (ll : List LayerLat)
    (now : Int) (pm um : ℚ) (mio : Int) (al be : ℚ) (w mo : Int)
    (ea ee ef : Bool) :
    (∀ t2 : ReqTable, t2 = t →
       run_window fp t2 heat tc tenc ll now pm um mio al be w mo ea ee ef =
       run_window fp t heat tc tenc ll now pm um mio al be w mo ea ee ef) ∧
    ((run_window fp t heat tc tenc ll now pm um mio al be w mo ea ee
        ef).requestsAfter =
      if t.hasPcluster = true ∧ fp = false then mutateReq t else t) ∧
    (fp = true →
      (run_window fp t heat tc tenc ll now pm um mio al be w mo ea ee
        ef).requestsAfter = t) ∧
    (t.hasPcluster = false →
      (run_window fp t heat tc tenc ll now pm um mio al be w mo ea ee
        ef).requestsAfter = t) ∧
    ((mutateReq t).rows.map (fun r => { r with page_id := 0 }) =
      t.rows.map (fun r => { r with page_id := 0 })) := by
  have hmain : (run_window fp t heat tc tenc ll now pm um mio al be w mo ea ee
      ef).requestsAfter =
      if t.hasPcluster = true ∧ fp = false then mutateReq t else t := by
    by_cases hpc : t.hasPcluster
    · by_cases hfp : fp
      · simp [run_window, prepReq, hpc, hfp]
      · by_cases hea : ea
        · simp [run_window, prepReq, hpc, hfp, hea, mutateReq_idem]
        · simp [run_window, prepReq, hpc, hfp, hea]
    · simp [run_window, hpc]
  refine ⟨?_, hmain, ?_, ?_, ?_⟩
  · intro t2 h
    rw [h]
  · intro hfp
    rw [hmain]
    simp [hfp]
  · intro hpc
    rw [hmain]
    simp [hpc]
  · simp only [mutateReq, List.map_map]
    rfl

/-- Concrete requests table for the C3 counterexample: `pcluster` present,
`page_id` present with a value differing from `page_start`. -/
def reqRowC3 : ReqRow :=
  { req_id := 0, node := 0, prefix_id := 0, layer := 0, page_start := 0,
    page_end := 0, tier_src := 0, tier_dst := 1, deadline_ms := 0,
    page_bytes := 1, tenant := 0, est_fill_ms := 1, pcluster := 0, page_id := 5 }

def reqTableC3 : ReqTable :=
  { rows := [reqRowC3], hasPcluster := true, hasPageId := true }

/-- C3 counterexample: in the default path (Bodo absent, `BODOCACHE_PURE_PY`
unset) with a `pcluster` column present, `run_window` overwrites the caller's
requests table: its `page_id` column is reassigned in place, so the table
after the call differs from the table before it. -/
theorem run_window_mutates_requests :
    (run_window false reqTableC3 { rows := [], hasSize := false } [] [] [] 0 1 0
      524288 1 0 20 64 true true true).requestsAfter ≠ reqTableC3 := by
  decide

theorem run_window_state_witness :
    (run_window true reqTableC3 { rows := [], hasSize := false } [] [] [] 0 1 0
      524288 1 0 20 64 true true true).requestsAfter = reqTableC3 ∧
    (run_window false { rows := [reqRowC3], hasPcluster := false, hasPageId := true }
      { rows := [], hasSize := false } [] [] [] 0 1 0 524288 1 0 20 64 true true
      true).requestsAfter =
      { rows := [reqRowC3], hasPcluster := false, hasPageId := true } ∧
    run_window false reqTableC3 { rows := [], hasSize := false } [] [] [] 0 1 0
      524288 1 0 20 64 true true true =
    run_window false reqTableC3 { rows := [], hasSize := false } [] [] [] 0 1 0
      524288 1 0 20 64 true true true :=
  ⟨(run_window_state true reqTableC3 { rows := [], hasSize := false } [] [] [] 0 1 0
      524288 1 0 20 64 true true true).2.2.1 rfl,
   (run_window_state false
      { rows := [reqRowC3], hasPcluster := false, hasPageId := true }
      { rows := [], hasSize := false } [] [] [] 0 1 0 524288 1 0 20 64 true true
      true).2.2.2.1 rfl,
   (run_window_state false reqTableC3 { rows := [], hasSize := false } [] [] [] 0 1
      0 524288 1 0 20 64 true true true).1 reqTableC3 rfl⟩

/-! ## C6 support: dedup-by-key and unique-heat join lemmas -/

theorem mem_of_mem_dedupByKey {α κ : Type} [DecidableEq κ] (key : α → κ) (a : α) :
    ∀ (l : List α) (seen : List κ), a ∈ dedupByKey key seen l → a ∈ l := by
  intro l
  induction l with
  | nil => intro seen h; simp [dedupByKey] at h
  | cons x xs ih =>
    intro seen h
    by_cases hk : key x ∈ seen
    · simp only [dedupByKey, if_pos hk] at h
      exact List.mem_cons_of_mem _ (ih _ h)
    · simp only [dedupByKey, if_neg hk, List.mem_cons] at h
      rcases h with rfl | h
      · exact List.mem_cons_self _ _
      · exact List.mem_cons_of_mem _ (ih _ h)

theorem dedupByKey_keys {α κ : Type} [DecidableEq κ] (key : α → κ) :
    ∀ (l : List α) (seen : List κ),
      ((dedupByKey key seen l).map key).Nodup ∧
      ∀ c ∈ (dedupByKey key seen l).map key, c ∉ seen := by
  intro l
  induction l with
  | nil => intro seen; simp [dedupByKey]
  | cons x xs ih =>
    intro seen
    by_cases hk : key x ∈ seen
    · simpa only [dedupByKey, if_pos hk] using ih seen
    · obtain ⟨ihnd, ihsn⟩ := ih (key x :: seen)
      simp only [dedupByKey, if_neg hk, List.map_cons]
      constructor
      · refine List.nodup_cons.mpr ⟨?_, ihnd⟩
        intro hc
        have := ihsn _ hc
        simp at this
      · intro c hc
        rcases List.mem_cons.mp hc with rfl | hc
        · exact hk
        · intro hcs
          exact ihsn c hc (List.mem_cons_of_mem _ hcs)

theorem mem_keys_dedupByKey {α κ : Type} [DecidableEq κ] (key : α → κ) (c : κ) :
    ∀ (l : List α) (seen : List κ),
      c ∈ (dedupByKey key seen l).map key ↔ (c ∈ l.map key ∧ c ∉ seen) := by
  intro l
  induction l with
  | nil => intro seen; simp [dedupByKey]
  | cons x xs ih =>
    intro seen
    by_cases hk : key x ∈ seen
    · simp only [dedupByKey, if_pos hk, ih, List.map_cons, List.mem_cons]
      constructor
      · rintro ⟨hc, hcs⟩
        exact ⟨Or.inr hc, hcs⟩
      · rintro ⟨hc | hc, hcs⟩
        · subst hc
          exact absurd hk hcs
        · exact ⟨hc, hcs⟩
    · simp only [dedupByKey, if_neg hk, List.map_cons, List.mem_cons, ih]
      constructor
      · rintro (rfl | ⟨hc, hcs⟩)
        · exact ⟨Or.inl rfl, hk⟩
        · exact ⟨Or.inr hc, fun hs => hcs (Or.inr hs)⟩
      · rintro ⟨hc | hc, hcs⟩
        · exact Or.inl hc
        · by_cases hcx : c = key x
          · exact Or.inl hcx
          · refine Or.inr ⟨hc, ?_⟩
            rintro (h | h)
            · exact hcx h
            · exact hcs h

theorem heatMatches_nil_decay (heat : List HeatRow) (l p : Int)
    (h : heatMatches heat l p = []) : decayOf heat l p = 0 := by
  unfold heatMatches at h
  unfold decayOf
  rw [List.find?_eq_none.mpr]
  intro x hx
  have := List.filter_eq_nil_iff.mp h x hx
  simpa using this

theorem heatMatches_decay (heat : List HeatRow)
    (hnd : (heat.map (fun h => (h.layer, h.page_id))).Nodup) (l p : Int) :
    ∀ h ∈ heatMatches heat l p, h.decay_hits = decayOf heat l p := by
  induction heat with
  | nil => intro h hh; simp [heatMatches] at hh
  | cons h0 hs ih =>
    intro h hh
    rw [List.map_cons] at hnd
    obtain ⟨hk0, hknd⟩ := List.nodup_cons.mp hnd
    by_cases hm : h0.layer = l ∧ h0.page_id = p
    · have hrest : heatMatches hs l p = [] := by
        unfold heatMatches
        rw [List.filter_eq_nil_iff]
        intro x hx hcx
        rw [decide_eq_true_eq] at hcx
        refine hk0 ?_
        have hx2 : (x.layer, x.page_id) ∈ hs.map (fun h => (h.layer, h.page_id)) :=
          List.mem_map_of_mem _ hx
        rw [hcx.1, hcx.2, ← hm.1, ← hm.2] at hx2
        exact hx2
      have hmm : heatMatches (h0 :: hs) l p = [h0] := by
        unfold heatMatches at hrest ⊢
        rw [List.filter_cons_of_pos (by simp [hm])]
        rw [hrest]
      rw [hmm] at hh
      rcases List.mem_singleton.mp hh with rfl
      unfold decayOf
      have hfind : List.find? (fun x => decide (x.layer = l ∧ x.page_id = p))
          (h :: hs) = some h := by
        apply List.find?_cons_of_pos
        simp [hm]
      rw [hfind]
    · have hmm : heatMatches (h0 :: hs) l p = heatMatches hs l p := by
        unfold heatMatches
        rw [List.filter_cons_of_neg (by simpa using hm)]
      have hfind : List.find? (fun x => decide (x.layer = l ∧ x.page_id = p))
          (h0 :: hs) =
          List.find? (fun x => decide (x.layer = l ∧ x.page_id = p)) hs := by
        apply List.find?_cons_of_neg
        simpa using hm
      unfold decayOf
      rw [hmm] at hh
      rw [hfind]
      exact ih hknd h hh

theorem admitRowTriples_ne_nil (heat : List HeatRow) (r : ReqRow) :
    admitRowTriples heat r ≠ [] := by
  unfold admitRowTriples
  by_cases h : (heatMatches heat r.layer r.page_start).isEmpty
  · simp [h]
  · simp only [h, Bool.false_eq_true, if_false, ne_eq, List.map_eq_nil_iff]
    intro hc
    rw [hc] at h
    simp at h

theorem admitRowTriples_eq (heat : List HeatRow)
    (hnd : (heat.map (fun h => (h.layer, h.page_id))).Nodup) (r : ReqRow) :
    ∀ t ∈ admitRowTriples heat r,
      t = (r.layer, r.page_start, decayOf heat r.layer r.page_start) := by
  intro t ht
  unfold admitRowTriples at ht
  by_cases h : (heatMatches heat r.layer r.page_start).isEmpty
  · simp only [h, if_true, List.mem_singleton] at ht
    subst ht
    rw [heatMatches_nil_decay heat r.layer r.page_start (List.isEmpty_iff.mp h)]
  · simp only [h, Bool.false_eq_true, if_false, List.mem_map] at ht
    rcases ht with ⟨hrow, hmem, rfl⟩
    rw [heatMatches_decay heat hnd r.layer r.page_start hrow hmem]

/-- C6: every admission row has `tier_dst = 0`; the output has no duplicate
`(layer, page_id)`; and a `(layer, page_id)` pair is emitted exactly when
some request on that layer has `page_start = page_id` and its joined
`decay_hits` (0 when the heat row is missing; heat keys are unique per the
data model) is at least the reuse threshold. -/
theorem admission_core_py_spec (requests : List ReqRow) (heat : List HeatRow)
    (thr : ℚ) (hnd : (heat.map (fun h => (h.layer, h.page_id))).Nodup) :
    (∀ a ∈ admission_core_py requests heat thr, a.tier_dst = 0) ∧
    ((admission_core_py requests heat thr).map
      (fun a => (a.layer, a.page_id))).Nodup ∧
    (∀ l p : Int,
      (∃ a ∈ admission_core_py requests heat thr, a.layer = l ∧ a.page_id = p) ↔
        ((∃ r ∈ requests, r.layer = l ∧ r.page_start = p) ∧
          thr ≤ ((decayOf heat l p : Int) : ℚ))) := by
  have hunfold : admission_core_py requests heat thr =
      (dedupByKey (fun t : Int × Int × Int => (t.1, t.2.1)) []
        ((admitMerged requests heat).filter
          (fun t => decide (thr ≤ (t.2.2 : ℚ))))).map
        (fun t => ({ layer := t.1, page_id := t.2.1, tier_dst := 0 } : AdmitRow)) :=
    rfl
  refine ⟨?_, ?_, ?_⟩
  · intro a ha
    rw [hunfold] at ha
    rcases List.mem_map.mp ha with ⟨t, _, rfl⟩
    rfl
  · rw [hunfold, List.map_map]
    exact (dedupByKey_keys (fun t : Int × Int × Int => (t.1, t.2.1)) _ []).1
  · intro l p
    rw [hunfold]
    constructor
    · rintro ⟨a, ha, hal, hap⟩
      rcases List.mem_map.mp ha with ⟨t, ht, rfl⟩
      have htm := mem_of_mem_dedupByKey _ t _ _ ht
      rcases List.mem_filter.mp htm with ⟨htmer, htmask⟩
      rcases List.mem_flatMap.mp htmer with ⟨r, hr, htr⟩
      have hteq := admitRowTriples_eq heat hnd r t htr
      have ht1 : t.1 = r.layer := by rw [hteq]
      have ht21 : t.2.1 = r.page_start := by rw [hteq]
      have ht22 : t.2.2 = decayOf heat r.layer r.page_start := by rw [hteq]
      have hl : r.layer = l := by
        rw [← ht1]
        exact hal
      have hp : r.page_start = p := by
        rw [← ht21]
        exact hap
      refine ⟨⟨r, hr, hl, hp⟩, ?_⟩
      rw [decide_eq_true_eq] at htmask
      rw [ht22, hl, hp] at htmask
      exact htmask
    · rintro ⟨⟨r, hr, hrl, hrp⟩, hthr⟩
      obtain ⟨t0, ht0⟩ : ∃ t, t ∈ admitRowTriples heat r := by
        cases hne : admitRowTriples heat r with
        | nil => exact absurd hne (admitRowTriples_ne_nil heat r)
        | cons x xs => exact ⟨x, by simp [hne]⟩
      have hteq := admitRowTriples_eq heat hnd r t0 ht0
      have ht0eq : t0 = (l, p, decayOf heat l p) := by
        rw [hteq, hrl, hrp]
      have ht0masked : t0 ∈ (admitMerged requests heat).filter
          (fun t => decide (thr ≤ (t.2.2 : ℚ))) := by
        refine List.mem_filter.mpr ⟨List.mem_flatMap.mpr ⟨r, hr, ht0⟩, ?_⟩
        rw [decide_eq_true_eq, ht0eq]
        exact hthr
      have hkeymem : (l, p) ∈
          (dedupByKey (fun t : Int × Int × Int => (t.1, t.2.1)) []
            ((admitMerged requests heat).filter
              (fun t => decide (thr ≤ (t.2.2 : ℚ))))).map
            (fun t => (t.1, t.2.1)) := by
        refine (mem_keys_dedupByKey _ (l, p) _ []).mpr ⟨?_, by simp⟩
        refine List.mem_map.mpr ⟨t0, ht0masked, ?_⟩
        rw [ht0eq]
      rcases List.mem_map.mp hkeymem with ⟨t1, ht1, hkey1⟩
      refine ⟨{ layer := t1.1, page_id := t1.2.1, tier_dst := 0 },
        List.mem_map_of_mem _ ht1, ?_, ?_⟩
      · have := congrArg Prod.fst hkey1
        simpa using this
      · have := congrArg Prod.snd hkey1
        simpa using this

theorem admission_core_py_spec_witness :
    (∀ a ∈ admission_core_py
        [{ req_id := 0, node := 0, prefix_id := 0, layer := 3, page_start := 7,
           page_end := 7, tier_src := 0, tier_dst := 1, deadline_ms := 0,
           page_bytes := 1, tenant := 0, est_fill_ms := 1, pcluster := 0,
           page_id := 0 }]
        [{ layer := 3, page_id := 7, decay_hits := 12, tenant_weight := 1,
           size_bytes := 0 }] 10, a.tier_dst = 0) ∧
    ((admission_core_py
        [{ req_id := 0, node := 0, prefix_id := 0, layer := 3, page_start := 7,
           page_end := 7, tier_src := 0, tier_dst := 1, deadline_ms := 0,
           page_bytes := 1, tenant := 0, est_fill_ms := 1, pcluster := 0,
           page_id := 0 }]
        [{ layer := 3, page_id := 7, decay_hits := 12, tenant_weight := 1,
           size_bytes := 0 }] 10).map (fun a => (a.layer, a.page_id))).Nodup :=
  ⟨(admission_core_py_spec
      [{ req_id := 0, node := 0, prefix_id := 0, layer := 3, page_start := 7,
         page_end := 7, tier_src := 0, tier_dst := 1, deadline_ms := 0,
         page_bytes := 1, tenant := 0, est_fill_ms := 1, pcluster := 0,
         page_id := 0 }]
      [{ layer := 3, page_id := 7, decay_hits := 12, tenant_weight := 1,
         size_bytes := 0 }] 10 (by decide)).1,
   (admission_core_py_spec
      [{ req_id := 0, node := 0, prefix_id := 0, layer := 3, page_start := 7,
         page_end := 7, tier_src := 0, tier_dst := 1, deadline_ms := 0,
         page_bytes := 1, tenant := 0, est_fill_ms := 1, pcluster := 0,
         page_id := 0 }]
      [{ layer := 3, page_id := 7, decay_hits := 12, tenant_weight := 1,
         size_bytes := 0 }] 10 (by decide)).2.1⟩

theorem evictionTarget_nonneg (plan : List PlanRow) (tier_caps : List TierCap) :
    0 ≤ evictionTarget plan tier_caps := by
  refine List.sum_nonneg ?_
  intro b hb
  rcases List.mem_map.mp hb with ⟨d, hd, rfl⟩
  have := List.mem_filter.mp hd
  rw [decide_eq_true_eq] at this
  omega

/-- C7: the eviction decision is empty for an empty plan or when no tier's
planned bytes exceed its free bytes; otherwise its victims are the coldest
heat rows whose summed `size_bytes` stays within the summed positive
deficits. -/
theorem eviction_core_py_spec (plan : List PlanRow) (heat : List HeatRow)
    (tier_caps : List TierCap) (hsz : ∀ h ∈ heat, 0 ≤ h.size_bytes) :
    (plan = [] → eviction_core_py plan heat tier_caps = .ok []) ∧
    ((∀ u ∈ usedByTier plan, u.2 ≤ (freeOf tier_caps u.1).getD 0) →
       ∀ ev, eviction_core_py plan heat tier_caps = .ok ev → ev = []) ∧
    (∀ ev, eviction_core_py plan heat tier_caps = .ok ev →
       ev = [] ∨ ev = (evictionKept plan heat tier_caps).map
         (fun h => (h.layer, h.page_id))) ∧
    ((evictionKept plan heat tier_caps).map (fun h => h.size_bytes)).sum ≤
      evictionTarget plan tier_caps := by
  refine ⟨?_, ?_, ?_, ?_⟩
  · intro h
    subst h
    rfl
  · intro hno ev hok
    have hdef : evictionDeficits plan tier_caps = [] := by
      unfold evictionDeficits
      rw [List.filter_eq_nil_iff]
      intro d hd hdc
      rcases List.mem_map.mp hd with ⟨u, hu, rfl⟩
      rw [decide_eq_true_eq] at hdc
      have := hno u hu
      simp only at hdc
      omega
    unfold eviction_core_py at hok
    by_cases hpe : plan.isEmpty
    · rw [if_pos hpe] at hok
      cases hok
      rfl
    · rw [if_neg hpe] at hok
      by_cases hany : (usedByTier plan).any (fun u => (freeOf tier_caps u.1).isNone)
      · rw [if_pos hany] at hok
        cases hok
      · rw [if_neg hany, if_pos (by rw [hdef]; rfl)] at hok
        cases hok
        rfl
  · intro ev hok
    unfold eviction_core_py at hok
    by_cases hpe : plan.isEmpty
    · rw [if_pos hpe] at hok
      cases hok
      exact Or.inl rfl
    · rw [if_neg hpe] at hok
      by_cases hany : (usedByTier plan).any (fun u => (freeOf tier_caps u.1).isNone)
      · rw [if_pos hany] at hok
        cases hok
      · rw [if_neg hany] at hok
        by_cases hde : (evictionDeficits plan tier_caps).isEmpty
        · rw [if_pos hde] at hok
          cases hok
          exact Or.inl rfl
        · rw [if_neg hde] at hok
          cases hok
          exact Or.inr rfl
  · have hsorted_sz : ∀ h ∈ sortBy decayLe heat, 0 ≤ h.size_bytes := by
      intro h hh
      exact hsz h ((mem_sortBy _ _ _).mp hh)
    have h5 := cumsumBy_filter_sum_le (fun _ : HeatRow => ()) (fun h => h.size_bytes)
      () (evictionTarget plan tier_caps) (sortBy decayLe heat) (fun _ => 0)
      hsorted_sz
    have hfe : ((cumsumBy (fun _ : HeatRow => ()) (fun h => h.size_bytes)
        (sortBy decayLe heat) (fun _ => 0)).filter
          (fun p => decide (p.2 ≤ evictionTarget plan tier_caps))) =
        ((cumsumBy (fun _ : HeatRow => ()) (fun h => h.size_bytes)
          (sortBy decayLe heat) (fun _ => 0)).filter
          (capFilter (fun _ : HeatRow => ()) () (evictionTarget plan tier_caps))) := by
      refine List.filter_congr ?_
      intro q _
      simp [capFilter]
    have h5' : (((cumsumBy (fun _ : HeatRow => ()) (fun h => h.size_bytes)
        (sortBy decayLe heat) (fun _ => 0)).filter
          (capFilter (fun _ : HeatRow => ()) () (evictionTarget plan tier_caps))).map
          (fun p => p.1.size_bytes)).sum ≤
        max (evictionTarget plan tier_caps) 0 := by
      simpa using h5
    rw [max_eq_left (evictionTarget_nonneg plan tier_caps)] at h5'
    have hgoal : ((evictionKept plan heat tier_caps).map
        (fun h => h.size_bytes)).sum =
        (((cumsumBy (fun _ : HeatRow => ()) (fun h => h.size_bytes)
          (sortBy decayLe heat) (fun _ => 0)).filter
          (capFilter (fun _ : HeatRow => ()) () (evictionTarget plan tier_caps))).map
          (fun p => p.1.size_bytes)).sum := by
      unfold evictionKept
      rw [hfe, List.map_map]
      rfl
    rw [hgoal]
    exact h5'

theorem eviction_core_py_spec_witness :
    eviction_core_py []
      [{ layer := 0, page_id := 1, decay_hits := 2, tenant_weight := 1,
         size_bytes := 40 }]
      [{ tier := 1, bandwidth_caps := 100, free_bytes := 30 }] = .ok [] ∧
    ((evictionKept
        [{ node := 0, tier_src := 0, tier_dst := 1, pcluster := 0, layer := 0,
           run_id := 0, bytes := 100, deadline_ms := 0, fanout := 1,
           overlap := 1, priority := 1, start_pid := 0, end_pid := 0,
           page_bytes := 100 }]
        [{ layer := 0, page_id := 1, decay_hits := 2, tenant_weight := 1,
           size_bytes := 40 },
         { layer := 0, page_id := 2, decay_hits := 5, tenant_weight := 1,
           size_bytes := 40 }]
        [{ tier := 1, bandwidth_caps := 100, free_bytes := 30 }]).map
      (fun h => h.size_bytes)).sum ≤
      evictionTarget
        [{ node := 0, tier_src := 0, tier_dst := 1, pcluster := 0, layer := 0,
           run_id := 0, bytes := 100, deadline_ms := 0, fanout := 1,
           overlap := 1, priority := 1, start_pid := 0, end_pid := 0,
           page_bytes := 100 }]
        [{ tier := 1, bandwidth_caps := 100, free_bytes := 30 }] :=
  ⟨(eviction_core_py_spec []
      [{ layer := 0, page_id := 1, decay_hits := 2, tenant_weight := 1,
         size_bytes := 40 }]
      [{ tier := 1, bandwidth_caps := 100, free_bytes := 30 }] (by decide)).1 rfl,
   (eviction_core_py_spec
      [{ node := 0, tier_src := 0, tier_dst := 1, pcluster := 0, layer := 0,
         run_id := 0, bytes := 100, deadline_ms := 0, fanout := 1,
         overlap := 1, priority := 1, start_pid := 0, end_pid := 0,
         page_bytes := 100 }]
      [{ layer := 0, page_id := 1, decay_hits := 2, tenant_weight := 1,
         size_bytes := 40 },
       { layer := 0, page_id := 2, decay_hits := 5, tenant_weight := 1,
         size_bytes := 40 }]
      [{ tier := 1, bandwidth_caps := 100, free_bytes := 30 }]
      (by decide)).2.2.2⟩

theorem buildSwizzle_succ (n c : Nat) :
    buildSwizzle (n + 1) c = buildSwizzle n c ++
      (if n % 2 = 0 then (List.range c).map (fun cc => (n, cc))
       else ((List.range c).reverse).map (fun cc => (n, cc))) := by
  unfold buildSwizzle
  rw [List.range_succ, List.flatMap_append]
  simp

theorem buildSwizzle_length (r c : Nat) : (buildSwizzle r c).length = r * c := by
  induction r with
  | zero => simp [buildSwizzle]
  | succ n ih =>
    rw [buildSwizzle_succ, List.length_append, ih]
    have hblock : (if n % 2 = 0 then (List.range c).map (fun cc => (n, cc))
        else ((List.range c).reverse).map (fun cc => (n, cc))).length = c := by
      by_cases h : n % 2 = 0 <;> simp [h]
    rw [hblock]
    ring

theorem buildSwizzle_fst_lt (r c : Nat) :
    ∀ x ∈ buildSwizzle r c, x.1 < r := by
  intro x hx
  unfold buildSwizzle at hx
  rcases List.mem_flatMap.mp hx with ⟨a, ha, hxa⟩
  have har : a < r := List.mem_range.mp ha
  by_cases h : a % 2 = 0
  · rw [if_pos h] at hxa
    rcases List.mem_map.mp hxa with ⟨cc, _, rfl⟩
    exact har
  · rw [if_neg h] at hxa
    rcases List.mem_map.mp hxa with ⟨cc, _, rfl⟩
    exact har

theorem buildSwizzle_nodup (r c : Nat) : (buildSwizzle r c).Nodup := by
  induction r with
  | zero => exact List.nodup_nil
  | succ n ih =>
    rw [buildSwizzle_succ]
    have hinj : Function.Injective (fun cc : Nat => (n, cc)) := by
      intro a b h
      simpa using h
    have hblock : (if n % 2 = 0 then (List.range c).map (fun cc => (n, cc))
        else ((List.range c).reverse).map (fun cc => (n, cc))).Nodup := by
      by_cases h : n % 2 = 0
      · rw [if_pos h]
        exact (List.nodup_range c).map hinj
      · rw [if_neg h]
        exact (List.nodup_reverse.mpr (List.nodup_range c)).map hinj
    refine (List.nodup_append).mpr ⟨ih, hblock, ?_⟩
    intro x hx hxb
    have h1 := buildSwizzle_fst_lt n c x hx
    have h2 : x.1 = n := by
      by_cases h : n % 2 = 0
      · rw [if_pos h] at hxb
        rcases List.mem_map.mp hxb with ⟨cc, _, rfl⟩
        rfl
      · rw [if_neg h] at hxb
        rcases List.mem_map.mp hxb with ⟨cc, _, rfl⟩
        rfl
    omega

theorem sqrt_grid_covers (n : Nat) (hn : 1 ≤ n) :
    n ≤ Nat.sqrt n * ((n + Nat.sqrt n - 1) / Nat.sqrt n) := by
  have hr : 1 ≤ Nat.sqrt n := Nat.sqrt_pos.mpr hn
  have hdm := Nat.div_add_mod (n + Nat.sqrt n - 1) (Nat.sqrt n)
  have hmlt : (n + Nat.sqrt n - 1) % Nat.sqrt n < Nat.sqrt n :=
    Nat.mod_lt _ (by omega)
  omega

theorem tileGrid_eq (n : Nat) (hn : 1 ≤ n) :
    tileGrid n = (Nat.sqrt n, (n + Nat.sqrt n - 1) / Nat.sqrt n) := by
  have hr : 1 ≤ Nat.sqrt n := Nat.sqrt_pos.mpr hn
  have hmax : max 1 (Nat.sqrt n) = Nat.sqrt n := max_eq_right hr
  simp only [tileGrid, floorSqrt_eq, hmax]
  rw [if_neg]
  have := sqrt_grid_covers n hn
  omega

/-- C8 (amended): for a group with `n ≥ 1` io extents, `build_wave_specs`
lays tiles on a grid of `⌊√n⌋` rows by `⌈n / ⌊√n⌋⌉` columns (not `⌈√n⌉`
rows); this grid already covers all `n` tiles (so the widening loop never
runs), and `tile_order` is the snake swizzle of that grid truncated to
exactly `n` distinct tiles. -/
theorem build_wave_specs_grid (g : List PlanRow) (hn : 1 ≤ countExtents g) :
    waveTileOrder g =
      (buildSwizzle (Nat.sqrt (countExtents g))
        ((countExtents g + Nat.sqrt (countExtents g) - 1) /
          Nat.sqrt (countExtents g))).take (countExtents g) ∧
    countExtents g ≤ Nat.sqrt (countExtents g) *
      ((countExtents g + Nat.sqrt (countExtents g) - 1) /
        Nat.sqrt (countExtents g)) ∧
    (waveTileOrder g).length = countExtents g ∧
    (waveTileOrder g).Nodup := by
  have hce : max 1 (countExtents g) = countExtents g := max_eq_right hn
  have hcov := sqrt_grid_covers (countExtents g) hn
  have h1 : waveTileOrder g =
      (buildSwizzle (Nat.sqrt (countExtents g))
        ((countExtents g + Nat.sqrt (countExtents g) - 1) /
          Nat.sqrt (countExtents g))).take (countExtents g) := by
    simp only [waveTileOrder, tileOrderFor, hce, tileGrid_eq (countExtents g) hn]
  refine ⟨h1, hcov, ?_, ?_⟩
  · rw [h1, List.length_take, buildSwizzle_length]
    omega
  · rw [h1]
    exact (buildSwizzle_nodup _ _).sublist (List.take_sublist _ _)

/-- Concrete two-op plan group for the C8 counterexample. -/
def wavePlanC8 : List PlanRow :=
  [{ node := 0, tier_src := 0, tier_dst := 1, pcluster := 0, layer := 0,
     run_id := 0, bytes := 8, deadline_ms := 0, fanout := 1, overlap := 1,
     priority := 1, start_pid := 0, end_pid := 0, page_bytes := 8 },
   { node := 0, tier_src := 0, tier_dst := 1, pcluster := 0, layer := 1,
     run_id := 0, bytes := 8, deadline_ms := 0, fanout := 1, overlap := 1,
     priority := 1, start_pid := 2, end_pid := 2, page_bytes := 8 }]

/-- C8 counterexample: a `(node, tier_dst)` group with two io extents gets
the snake order of a 1×2 grid, `[(0,0), (0,1)]`, not the `⌈√2⌉ = 2`-row grid
`[(0,0), (1,0)]` the specification describes. -/
theorem build_wave_specs_grid_counterexample :
    waveTileOrder wavePlanC8 = [(0, 0), (0, 1)] ∧
    tileOrderSpec (countExtents wavePlanC8) = [(0, 0), (1, 0)] ∧
    waveTileOrder wavePlanC8 ≠ tileOrderSpec (countExtents wavePlanC8) := by
  decide

theorem build_wave_specs_grid_witness :
    waveTileOrder wavePlanC8 =
      (buildSwizzle (Nat.sqrt (countExtents wavePlanC8))
        ((countExtents wavePlanC8 + Nat.sqrt (countExtents wavePlanC8) - 1) /
          Nat.sqrt (countExtents wavePlanC8))).take (countExtents wavePlanC8) ∧
    (waveTileOrder wavePlanC8).length = countExtents wavePlanC8 :=
  ⟨(build_wave_specs_grid wavePlanC8 (by decide)).1,
   (build_wave_specs_grid wavePlanC8 (by decide)).2.2.1⟩

theorem executeEvents_cons_skip (store : Int → List Nat) (r : PlanRow)
    (rs : List PlanRow) (hse : ¬ r.start_pid ≤ r.end_pid) :
    executeEvents store (r :: rs) = executeEvents store rs := by
  simp [executeEvents, hse]

theorem executeEvents_cons_read (store : Int → List Nat) (r : PlanRow)
    (rs : List PlanRow) (hse : r.start_pid ≤ r.end_pid)
    (hn : 0 < (r.end_pid - r.start_pid + 1) * r.page_bytes) :
    executeEvents store (r :: rs) =
      match read_range (store r.layer) r.start_pid.toNat r.end_pid.toNat
          r.page_bytes.toNat with
      | .error _ => []
      | .ok _ => eventOf r :: executeEvents store rs := by
  simp [executeEvents, hse, hn]

/-- C9: `NodeAgent.execute` fires at most one `on_ready` per plan row (the
event stream is the image of a sublist of the plan), and with the simulated
copy engine — whose `submit` invokes the completion callback exactly once
per op — every row whose reads succeed and whose range is non-empty fires
exactly one event carrying that row's node, layer, page range and byte
count. -/
theorem node_agent_events (store : Int → List Nat) (plan : List PlanRow)
    (hpb : ∀ r ∈ plan, 0 < r.page_bytes) :
    (∃ sub : List PlanRow, sub.Sublist plan ∧
       executeEvents store plan = sub.map eventOf) ∧
    ((∀ r ∈ plan, r.start_pid ≤ r.end_pid → rowReadOk store r) →
       executeEvents store plan =
         (plan.filter (fun r => decide (r.start_pid ≤ r.end_pid))).map eventOf) := by
  induction plan with
  | nil =>
    exact ⟨⟨[], List.nil_sublist _, rfl⟩, fun _ => rfl⟩
  | cons r rs ih =>
    have hpbr : 0 < r.page_bytes := hpb r (List.mem_cons_self _ _)
    have hpb' : ∀ x ∈ rs, 0 < x.page_bytes :=
      fun x hx => hpb x (List.mem_cons_of_mem _ hx)
    obtain ⟨⟨sub, hsub, heq⟩, hall⟩ := ih hpb'
    by_cases hse : r.start_pid ≤ r.end_pid
    · have hn : 0 < (r.end_pid - r.start_pid + 1) * r.page_bytes :=
        mul_pos (by omega) hpbr
      constructor
      · cases hread : read_range (store r.layer) r.start_pid.toNat
            r.end_pid.toNat r.page_bytes.toNat with
        | error msg =>
          refine ⟨[], List.nil_sublist _, ?_⟩
          rw [executeEvents_cons_read store r rs hse hn, hread]
          rfl
        | ok data =>
          refine ⟨r :: sub, hsub.cons₂ r, ?_⟩
          rw [executeEvents_cons_read store r rs hse hn, hread, List.map_cons, heq]
      · intro hro
        have hror := hro r (List.mem_cons_self _ _) hse
        unfold rowReadOk at hror
        cases hread : read_range (store r.layer) r.start_pid.toNat
            r.end_pid.toNat r.page_bytes.toNat with
        | error msg =>
          rw [hread] at hror
          simp [Except.isOk, Except.toBool] at hror
        | ok data =>
          rw [executeEvents_cons_read store r rs hse hn, hread,
            List.filter_cons_of_pos (by simp [hse]), List.map_cons]
          rw [hall (fun x hx hx2 => hro x (List.mem_cons_of_mem _ hx) hx2)]
    · constructor
      · refine ⟨sub, hsub.cons r, ?_⟩
        rw [executeEvents_cons_skip store r rs hse, heq]
      · intro hro
        rw [executeEvents_cons_skip store r rs hse,
          List.filter_cons_of_neg (by simp [hse]),
          hall (fun x hx hx2 => hro x (List.mem_cons_of_mem _ hx) hx2)]

theorem node_agent_events_witness :
    executeEvents (fun _ => List.replicate 8 0)
      [{ node := 0, tier_src := 0, tier_dst := 1, pcluster := 0, layer := 0,
         run_id := 0, bytes := 4, deadline_ms := 0, fanout := 1, overlap := 1,
         priority := 1, start_pid := 0, end_pid := 1, page_bytes := 2 },
       { node := 0, tier_src := 0, tier_dst := 1, pcluster := 0, layer := 1,
         run_id := 0, bytes := 0, deadline_ms := 0, fanout := 1, overlap := 1,
         priority := 1, start_pid := 3, end_pid := 2, page_bytes := 2 }] =
      (([{ node := 0, tier_src := 0, tier_dst := 1, pcluster := 0, layer := 0,
           run_id := 0, bytes := 4, deadline_ms := 0, fanout := 1, overlap := 1,
           priority := 1, start_pid := 0, end_pid := 1, page_bytes := 2 },
         { node := 0, tier_src := 0, tier_dst := 1, pcluster := 0, layer := 1,
           run_id := 0, bytes := 0, deadline_ms := 0, fanout := 1, overlap := 1,
           priority := 1, start_pid := 3, end_pid := 2, page_bytes := 2 }] :
        List PlanRow).filter
        (fun r => decide (r.start_pid ≤ r.end_pid))).map eventOf :=
  (node_agent_events (fun _ => List.replicate 8 0)
    [{ node := 0, tier_src := 0, tier_dst := 1, pcluster := 0, layer := 0,
       run_id := 0, bytes := 4, deadline_ms := 0, fanout := 1, overlap := 1,
       priority := 1, start_pid := 0, end_pid := 1, page_bytes := 2 },
     { node := 0, tier_src := 0, tier_dst := 1, pcluster := 0, layer := 1,
       run_id := 0, bytes := 0, deadline_ms := 0, fanout := 1, overlap := 1,
       priority := 1, start_pid := 3, end_pid := 2, page_bytes := 2 }]
    (by decide)).2 (by decide)

end BCache
